import Mathlib

/-!
Verification of the modern symmetric block-cipher pair of the repository:
the Feistel (DES) engine of `src/symmetric/des.js` and the SPN (AES-128)
engine of `src/unnamed/part_001`.

Modelling conventions (shallow embedding of the JavaScript source):
* a JS string is a `List Char` (each element one UTF-16 code unit;
  astral-plane code points do not occur under the claims' hypotheses);
* a JS array of byte values is a `List Nat`;
* the binary strings the DES code manipulates (characters `0`/`1`) are
  `List Bool`;
* out-of-range JS index reads yield `undefined`, which the arithmetic
  contexts of this code coerce to `0` (`ToInt32 NaN = 0`) — modelled with
  `List.getD` and default `0` / `false`;
* `throw` is modelled with `Except CryptoError`.
All definitions are translated clause-for-clause from the source files.
-/

/-- Errors thrown by the two engines: the spec's `InvalidKeyFormat` and
`InvalidCiphertextFormat`. -/
inductive CryptoError : Type where
  | invalidKey : CryptoError
  | invalidCiphertext : CryptoError
deriving DecidableEq, Repr

/-- Fuel-driven worker for `chunks` (the fuel only ensures structural
termination; `chunks` always supplies enough). -/
def chunksAux {α : Type} (n : Nat) : Nat → List α → List (List α)
  | _, [] => []
  | 0, _ :: _ => []
  | fuel + 1, a :: rest => (a :: rest).take n :: chunksAux n fuel (rest.drop (n - 1))

/-- Splits a list into consecutive pieces of `n` elements (the final piece
may be shorter), as the JS loops `for (i = 0; i < len; i += n)` with
`substr(i, n)` / `slice(i, i + n)` do. -/
def chunks {α : Type} (n : Nat) (l : List α) : List (List α) :=
  chunksAux n l.length l

theorem chunksAux_nil {α : Type} (n fuel : Nat) : chunksAux (α := α) n fuel [] = [] := by
  cases fuel <;> rfl

theorem chunksAux_fuel {α : Type} (n : Nat) :
    ∀ (f1 f2 : Nat) (l : List α), l.length ≤ f1 → l.length ≤ f2 →
      chunksAux n f1 l = chunksAux n f2 l
  | 0, f2, l, h1, _ => by
    have : l = [] := List.length_eq_zero.mp (Nat.le_zero.mp h1)
    subst this
    rw [chunksAux_nil, chunksAux_nil]
  | f1 + 1, f2, [], _, _ => by rw [chunksAux_nil, chunksAux_nil]
  | f1 + 1, f2, a :: rest, h1, h2 => by
    cases f2 with
    | zero => simp at h2
    | succ g =>
      show _ :: chunksAux n f1 (rest.drop (n - 1)) = _ :: chunksAux n g (rest.drop (n - 1))
      have hd : (rest.drop (n - 1)).length ≤ rest.length := by
        simp [List.length_drop]
      have hl1 : rest.length ≤ f1 := by simpa using h1
      have hl2 : rest.length ≤ g := by simpa using h2
      rw [chunksAux_fuel n f1 g (rest.drop (n - 1)) (Nat.le_trans hd hl1) (Nat.le_trans hd hl2)]

/-- Unfolding equation for `chunks` on a nonempty list. -/
theorem chunks_cons {α : Type} (n : Nat) (a : α) (rest : List α) :
    chunks n (a :: rest) = (a :: rest).take n :: chunks n (rest.drop (n - 1)) := by
  show chunksAux n (rest.length + 1) (a :: rest) = _
  show (a :: rest).take n :: chunksAux n rest.length (rest.drop (n - 1)) = _
  rw [chunksAux_fuel n rest.length (rest.drop (n - 1)).length (rest.drop (n - 1))
    (by simp [List.length_drop]) (Nat.le_refl _)]
  rfl

@[simp] theorem chunks_nil {α : Type} (n : Nat) : chunks n ([] : List α) = [] := rfl

/-- Splitting off one full-size piece from the front. -/
theorem chunks_append {α : Type} (n : Nat) (hn : 1 ≤ n) (x y : List α)
    (hx : x.length = n) : chunks n (x ++ y) = x :: chunks n y := by
  cases x with
  | nil => simp at hx; omega
  | cons a rest =>
    rw [List.cons_append, chunks_cons]
    have h1 : (a :: (rest ++ y)).take n = a :: rest := by
      rw [← List.cons_append, ← hx]
      exact List.take_left _ _
    have h2 : rest.length = n - 1 := by simp at hx; omega
    have h3 : (rest ++ y).drop (n - 1) = y := by
      rw [← h2]
      exact List.drop_left _ _
    rw [h1, h3]

/-- Rejoining the pieces gives back the original list. -/
theorem join_chunks {α : Type} (n : Nat) (hn : 1 ≤ n) : ∀ (l : List α), (chunks n l).flatten = l
  | [] => by simp
  | a :: rest => by
    rw [chunks_cons, List.flatten_cons, join_chunks n hn (rest.drop (n - 1))]
    rcases n with _ | m
    · omega
    · show (a :: rest).take (m + 1) ++ (a :: rest).drop (m + 1) = a :: rest
      exact List.take_append_drop _ _
termination_by l => l.length
decreasing_by simp [List.length_drop]; omega

/-- Chunking a concatenation of `n`-element pieces recovers the pieces. -/
theorem chunks_join_map {α β : Type} (n : Nat) (hn : 1 ≤ n) (f : α → List β) :
    ∀ (l : List α), (∀ x ∈ l, (f x).length = n) →
      chunks n (l.map f).flatten = l.map f
  | [], _ => by simp
  | a :: rest, h => by
    rw [List.map_cons, List.flatten_cons,
      chunks_append n hn _ _ (h a (List.mem_cons_self a rest)),
      chunks_join_map n hn f rest (fun x hx => h x (List.mem_cons_of_mem a hx))]

/-- Every piece produced by `chunks` has at most `n` elements. -/
theorem chunks_length_le {α : Type} (n : Nat) :
    ∀ (l : List α) (c : List α), c ∈ chunks n l → c.length ≤ n
  | [], c, hc => by simp at hc
  | a :: rest, c, hc => by
    rw [chunks_cons] at hc
    rcases List.mem_cons.mp hc with h | h
    · subst h
      simpa using List.length_take_le n (a :: rest)
    · exact chunks_length_le n (rest.drop (n - 1)) c h
termination_by l => l.length
decreasing_by simp [List.length_drop]; omega

/-- When `n` divides the list length, every piece has exactly `n`
elements. -/
theorem chunks_length_eq {α : Type} (n : Nat) (hn : 1 ≤ n) :
    ∀ (l : List α) (c : List α), c ∈ chunks n l → n ∣ l.length → c.length = n
  | [], c, hc, _ => by simp at hc
  | a :: rest, c, hc, hdvd => by
    rw [chunks_cons] at hc
    rcases hdvd with ⟨k, hk⟩
    rcases k with _ | k'
    · simp at hk
    · have hmul : n * (k' + 1) = n * k' + n := Nat.mul_succ n k'
      have hlen : rest.length + 1 = n * k' + n := by
        have h0 : (a :: rest).length = n * (k' + 1) := hk
        simp at h0
        omega
      rcases List.mem_cons.mp hc with h | h
      · subst h
        simp [List.length_take]
        omega
      · refine chunks_length_eq n hn (rest.drop (n - 1)) c h ⟨k', ?_⟩
        rw [List.length_drop]
        omega
termination_by l => l.length
decreasing_by simp [List.length_drop]; omega

/-- Every element of a piece is an element of the original list. -/
theorem chunks_mem_mem {α : Type} (n : Nat) :
    ∀ (l : List α) (c : List α), c ∈ chunks n l → ∀ x ∈ c, x ∈ l
  | [], c, hc => by simp at hc
  | a :: rest, c, hc => by
    rw [chunks_cons] at hc
    rcases List.mem_cons.mp hc with h | h
    · subst h
      intro x hx
      exact List.take_subset _ _ hx
    · intro x hx
      have := chunks_mem_mem n (rest.drop (n - 1)) c h x hx
      exact List.mem_cons_of_mem a (List.drop_subset _ _ this)
termination_by l => l.length
decreasing_by simp [List.length_drop]; omega

/-- Number of pieces when `n` divides the length. -/
theorem chunks_count {α : Type} (n : Nat) (hn : 1 ≤ n) :
    ∀ (l : List α), n ∣ l.length → (chunks n l).length = l.length / n
  | [], _ => by simp
  | a :: rest, hdvd => by
    rcases hdvd with ⟨k, hk⟩
    rcases k with _ | k'
    · simp at hk
    · have hmul : n * (k' + 1) = n * k' + n := Nat.mul_succ n k'
      have hlen : rest.length + 1 = n * k' + n := by
        have h0 : (a :: rest).length = n * (k' + 1) := hk
        simp at h0
        omega
      have hdlen : (rest.drop (n - 1)).length = n * k' := by
        rw [List.length_drop]
        omega
      rw [chunks_cons, List.length_cons, chunks_count n hn (rest.drop (n - 1)) ⟨k', hdlen⟩, hdlen]
      rw [hk, Nat.mul_div_cancel_left _ (show 0 < n by omega),
        Nat.mul_div_cancel_left _ (show 0 < n by omega)]
termination_by l => l.length
decreasing_by simp [List.length_drop]; omega

/-- Value of one hexadecimal digit character, as `parseInt(h, 16)` yields
for the characters that pass validation (comparisons are on the code
point; `parseInt`'s `NaN` for any other character is coerced to `0` by the
arithmetic contexts of this code and is never reached under the validation
hypotheses). -/
def hexVal (c : Char) : Nat :=
  if 48 ≤ c.toNat ∧ c.toNat ≤ 57 then c.toNat - 48
  else if 97 ≤ c.toNat ∧ c.toNat ≤ 102 then c.toNat - 87
  else if 65 ≤ c.toNat ∧ c.toNat ≤ 70 then c.toNat - 55
  else 0

/-- Uppercase hexadecimal digit character of a value, as
`v.toString(16)` followed by the enclosing `toUpperCase()` produces it.
Call sites only supply values below 16 (JS would print further digits
otherwise). -/
def hexDigitChar (n : Nat) : Char :=
  ['0', '1', '2', '3', '4', '5', '6', '7', '8', '9',
   'A', 'B', 'C', 'D', 'E', 'F'].getD n '0'

/-- Test for the regex character class `[0-9A-Fa-f]`. -/
def isHexChar (c : Char) : Bool :=
  (48 ≤ c.toNat && c.toNat ≤ 57) || (65 ≤ c.toNat && c.toNat ≤ 70) ||
    (97 ≤ c.toNat && c.toNat ≤ 102)

/-- The shared `hexToBytes` of both engines: parse the hex string in
2-character groups. -/
def hexToBytes (hex : List Char) : List Nat :=
  (chunks 2 hex).map (fun cs => cs.foldl (fun a c => 16 * a + hexVal c) 0)

/-- The shared `bytesToHex` of both engines: two uppercase hex digits per
byte (faithful for the byte values below 256 that all call sites supply). -/
def bytesToHex (bytes : List Nat) : List Char :=
  bytes.flatMap (fun b => [hexDigitChar (b / 16), hexDigitChar (b % 16)])

/-- The shared `stringToBytes`: `charCodeAt` of each character. -/
def stringToBytes (s : List Char) : List Nat :=
  s.map Char.toNat

/-- The shared `bytesToString`: `String.fromCharCode` of each byte. -/
def bytesToString (bytes : List Nat) : List Char :=
  bytes.map Char.ofNat

theorem hexVal_lt (c : Char) : hexVal c < 16 := by
  unfold hexVal
  repeat' split
  all_goals omega

theorem hexVal_hexDigitChar : ∀ v < 16, hexVal (hexDigitChar v) = v := by decide

theorem isHexChar_hexDigitChar (n : Nat) : isHexChar (hexDigitChar n) = true := by
  rcases Nat.lt_or_ge n 16 with h | h
  · interval_cases n <;> decide
  · unfold hexDigitChar
    rw [List.getD_eq_default _ _ (by simp; omega)]
    decide

theorem bytesToString_stringToBytes (s : List Char) :
    bytesToString (stringToBytes s) = s := by
  simp [bytesToString, stringToBytes, List.map_map, Function.comp_def, Char.ofNat_toNat]

theorem parse_pair (b : Nat) (hb : b < 256) :
    [hexDigitChar (b / 16), hexDigitChar (b % 16)].foldl (fun a c => 16 * a + hexVal c) 0 = b := by
  simp only [List.foldl_cons, List.foldl_nil]
  rw [hexVal_hexDigitChar (b / 16) (by omega), hexVal_hexDigitChar (b % 16) (by omega)]
  omega

theorem hexToBytes_bytesToHex (bytes : List Nat) (h : ∀ b ∈ bytes, b < 256) :
    hexToBytes (bytesToHex bytes) = bytes := by
  unfold hexToBytes bytesToHex
  rw [List.flatMap_def,
    chunks_join_map 2 (by omega)
      (fun b => [hexDigitChar (b / 16), hexDigitChar (b % 16)]) bytes (fun x _ => rfl),
    List.map_map]
  have key : ∀ b ∈ bytes,
      ((fun cs => cs.foldl (fun a c => 16 * a + hexVal c) 0) ∘
        (fun b => [hexDigitChar (b / 16), hexDigitChar (b % 16)])) b = b :=
    fun b hb => parse_pair b (h b hb)
  rw [List.map_congr_left key, List.map_id']

theorem bytesToHex_length (bytes : List Nat) :
    (bytesToHex bytes).length = 2 * bytes.length := by
  induction bytes with
  | nil => rfl
  | cons b rest ih =>
    show (_ :: _ :: bytesToHex rest).length = _
    simp [ih]
    omega

theorem bytesToHex_append (a b : List Nat) :
    bytesToHex (a ++ b) = bytesToHex a ++ bytesToHex b := by
  unfold bytesToHex
  exact List.flatMap_append a b _

theorem bytesToHex_mem (bytes : List Nat) (h : ∀ b ∈ bytes, b < 256) :
    ∀ c ∈ bytesToHex bytes, ∃ v, v < 16 ∧ c = hexDigitChar v := by
  intro c hc
  unfold bytesToHex at hc
  rw [List.mem_flatMap] at hc
  obtain ⟨b, hb, hcb⟩ := hc
  rcases List.mem_cons.mp hcb with h1 | h1
  · exact ⟨b / 16, by have := h b hb; omega, h1⟩
  · rcases List.mem_cons.mp h1 with h2 | h2
    · exact ⟨b % 16, by omega, h2⟩
    · simp at h2

theorem bytesToHex_isHex (bytes : List Nat) :
    ∀ c ∈ bytesToHex bytes, isHexChar c = true := by
  intro c hc
  unfold bytesToHex at hc
  rw [List.mem_flatMap] at hc
  obtain ⟨b, _, hcb⟩ := hc
  rcases List.mem_cons.mp hcb with h1 | h1
  · exact h1 ▸ isHexChar_hexDigitChar _
  · rcases List.mem_cons.mp h1 with h2 | h2
    · exact h2 ▸ isHexChar_hexDigitChar _
    · simp at h2

theorem hexToBytes_lt (hex : List Char) : ∀ b ∈ hexToBytes hex, b < 256 := by
  intro b hb
  unfold hexToBytes at hb
  rw [List.mem_map] at hb
  obtain ⟨cs, hcs, hparse⟩ := hb
  have hlen : cs.length ≤ 2 := chunks_length_le 2 hex cs hcs
  subst hparse
  match cs, hlen with
  | [], _ => simp
  | [c], _ =>
    simp only [List.foldl_cons, List.foldl_nil]
    have := hexVal_lt c
    omega
  | [c, d], _ =>
    simp only [List.foldl_cons, List.foldl_nil]
    have := hexVal_lt c
    have := hexVal_lt d
    omega

theorem hexToBytes_length (hex : List Char) (h : 2 ∣ hex.length) :
    (hexToBytes hex).length = hex.length / 2 := by
  unfold hexToBytes
  rw [List.length_map, chunks_count 2 (by omega) hex h]

theorem bytesToHex_hexToBytes (hex : List Char)
    (h : ∀ c ∈ hex, ∃ v, v < 16 ∧ c = hexDigitChar v) (h2 : 2 ∣ hex.length) :
    bytesToHex (hexToBytes hex) = hex := by
  unfold hexToBytes bytesToHex
  rw [List.flatMap_def, List.map_map]
  have hall : ∀ cs ∈ chunks 2 hex, cs.length = 2 := fun cs hcs =>
    chunks_length_eq 2 (by omega) hex cs hcs h2
  have key : ∀ cs ∈ chunks 2 hex,
      ((fun b => [hexDigitChar (b / 16), hexDigitChar (b % 16)]) ∘
        (fun cs => cs.foldl (fun a c => 16 * a + hexVal c) 0)) cs = cs := by
    intro cs hcs
    match cs, hall cs hcs with
    | [c, d], _ =>
      obtain ⟨v, hv, hc⟩ := h c (chunks_mem_mem 2 hex _ hcs c (by simp))
      obtain ⟨w, hw, hd⟩ := h d (chunks_mem_mem 2 hex _ hcs d (by simp))
      subst hc hd
      simp only [Function.comp_apply, List.foldl_cons, List.foldl_nil]
      rw [hexVal_hexDigitChar v hv, hexVal_hexDigitChar w hw]
      have hdiv : (16 * (16 * 0 + v) + w) / 16 = v := by omega
      have hmod : (16 * (16 * 0 + v) + w) % 16 = w := by omega
      rw [hdiv, hmod]
  rw [List.map_congr_left key, List.map_id']
  exact join_chunks 2 (by omega) hex

namespace DES

/-- Initial permutation table `IP`. -/
def IP : List Nat :=
  [58, 50, 42, 34, 26, 18, 10, 2,
   60, 52, 44, 36, 28, 20, 12, 4,
   62, 54, 46, 38, 30, 22, 14, 6,
   64, 56, 48, 40, 32, 24, 16, 8,
   57, 49, 41, 33, 25, 17, 9, 1,
   59, 51, 43, 35, 27, 19, 11, 3,
   61, 53, 45, 37, 29, 21, 13, 5,
   63, 55, 47, 39, 31, 23, 15, 7]

/-- Final permutation table `FP`. -/
def FP : List Nat :=
  [40, 8, 48, 16, 56, 24, 64, 32,
   39, 7, 47, 15, 55, 23, 63, 31,
   38, 6, 46, 14, 54, 22, 62, 30,
   37, 5, 45, 13, 53, 21, 61, 29,
   36, 4, 44, 12, 52, 20, 60, 28,
   35, 3, 43, 11, 51, 19, 59, 27,
   34, 2, 42, 10, 50, 18, 58, 26,
   33, 1, 41, 9, 49, 17, 57, 25]

/-- Expansion table `E`. -/
def E : List Nat :=
  [32, 1, 2, 3, 4, 5,
   4, 5, 6, 7, 8, 9,
   8, 9, 10, 11, 12, 13,
   12, 13, 14, 15, 16, 17,
   16, 17, 18, 19, 20, 21,
   20, 21, 22, 23, 24, 25,
   24, 25, 26, 27, 28, 29,
   28, 29, 30, 31, 32, 1]

/-- Permutation table `P`. -/
def P : List Nat :=
  [16, 7, 20, 21, 29, 12, 28, 17,
   1, 15, 23, 26, 5, 18, 31, 10,
   2, 8, 24, 14, 32, 27, 3, 9,
   19, 13, 30, 6, 22, 11, 4, 25]

/-- The eight S-boxes `S_BOXES`. -/
def S_BOXES : List (List (List Nat)) :=
  [[[14, 4, 13, 1, 2, 15, 11, 8, 3, 10, 6, 12, 5, 9, 0, 7],
    [0, 15, 7, 4, 14, 2, 13, 1, 10, 6, 12, 11, 9, 5, 3, 8],
    [4, 1, 14, 8, 13, 6, 2, 11, 15, 12, 9, 7, 3, 10, 5, 0],
    [15, 12, 8, 2, 4, 9, 1, 7, 5, 11, 3, 14, 10, 0, 6, 13]],
   [[15, 1, 8, 14, 6, 11, 3, 4, 9, 7, 2, 13, 12, 0, 5, 10],
    [3, 13, 4, 7, 15, 2, 8, 14, 12, 0, 1, 10, 6, 9, 11, 5],
    [0, 14, 7, 11, 10, 4, 13, 1, 5, 8, 12, 6, 9, 3, 2, 15],
    [13, 8, 10, 1, 3, 15, 4, 2, 11, 6, 7, 12, 0, 5, 14, 9]],
   [[10, 0, 9, 14, 6, 3, 15, 5, 1, 13, 12, 7, 11, 4, 2, 8],
    [13, 7, 0, 9, 3, 4, 6, 10, 2, 8, 5, 14, 12, 11, 15, 1],
    [13, 6, 4, 9, 8, 15, 3, 0, 11, 1, 2, 12, 5, 10, 14, 7],
    [1, 10, 13, 0, 6, 9, 8, 7, 4, 15, 14, 3, 11, 5, 2, 12]],
   [[7, 13, 14, 3, 0, 6, 9, 10, 1, 2, 8, 5, 11, 12, 4, 15],
    [13, 8, 11, 5, 6, 15, 0, 3, 4, 7, 2, 12, 1, 10, 14, 9],
    [10, 6, 9, 0, 12, 11, 7, 13, 15, 1, 3, 14, 5, 2, 8, 4],
    [3, 15, 0, 6, 10, 1, 13, 8, 9, 4, 5, 11, 12, 7, 2, 14]],
   [[2, 12, 4, 1, 7, 10, 11, 6, 8, 5, 3, 15, 13, 0, 14, 9],
    [14, 11, 2, 12, 4, 7, 13, 1, 5, 0, 15, 10, 3, 9, 8, 6],
    [4, 2, 1, 11, 10, 13, 7, 8, 15, 9, 12, 5, 6, 3, 0, 14],
    [11, 8, 12, 7, 1, 14, 2, 13, 6, 15, 0, 9, 10, 4, 5, 3]],
   [[12, 1, 10, 15, 9, 2, 6, 8, 0, 13, 3, 4, 14, 7, 5, 11],
    [10, 15, 4, 2, 7, 12, 9, 5, 6, 1, 13, 14, 0, 11, 3, 8],
    [9, 14, 15, 5, 2, 8, 12, 3, 7, 0, 4, 10, 1, 13, 11, 6],
    [4, 3, 2, 12, 9, 5, 15, 10, 11, 14, 1, 7, 6, 0, 8, 13]],
   [[4, 11, 2, 14, 15, 0, 8, 13, 3, 12, 9, 7, 5, 10, 6, 1],
    [13, 0, 11, 7, 4, 9, 1, 10, 14, 3, 5, 12, 2, 15, 8, 6],
    [1, 4, 11, 13, 12, 3, 7, 14, 10, 15, 6, 8, 0, 5, 9, 2],
    [6, 11, 13, 8, 1, 4, 10, 7, 9, 5, 0, 15, 14, 2, 3, 12]],
   [[13, 2, 8, 4, 6, 15, 11, 1, 10, 9, 3, 14, 5, 0, 12, 7],
    [1, 15, 13, 8, 10, 3, 7, 4, 12, 5, 6, 11, 0, 14, 9, 2],
    [7, 11, 4, 1, 9, 12, 14, 2, 0, 6, 10, 13, 15, 3, 5, 8],
    [2, 1, 14, 7, 4, 10, 8, 13, 15, 12, 9, 0, 3, 5, 6, 11]]]

/-- Permuted choice 1 `PC1`. -/
def PC1 : List Nat :=
  [57, 49, 41, 33, 25, 17, 9,
   1, 58, 50, 42, 34, 26, 18,
   10, 2, 59, 51, 43, 35, 27,
   19, 11, 3, 60, 52, 44, 36,
   63, 55, 47, 39, 31, 23, 15,
   7, 62, 54, 46, 38, 30, 22,
   14, 6, 61, 53, 45, 37, 29,
   21, 13, 5, 28, 20, 12, 4]

/-- Permuted choice 2 `PC2`. -/
def PC2 : List Nat :=
  [14, 17, 11, 24, 1, 5,
   3, 28, 15, 6, 21, 10,
   23, 19, 12, 4, 26, 8,
   16, 7, 27, 20, 13, 2,
   41, 52, 31, 37, 47, 55,
   30, 40, 51, 45, 33, 48,
   44, 49, 39, 56, 34, 53,
   46, 42, 50, 36, 29, 32]

/-- Per-round left-shift amounts `SHIFTS`. -/
def SHIFTS : List Nat := [1, 1, 2, 2, 2, 2, 2, 2, 1, 2, 2, 2, 2, 2, 2, 1]

/-- Big-endian 4-bit group of a hex digit value, as
`parseInt(h, 16).toString(2).padStart(4, '0')` produces it for values
below 16 (and `hexVal` is always below 16). -/
def bits4 (n : Nat) : List Bool :=
  [n.testBit 3, n.testBit 2, n.testBit 1, n.testBit 0]

/-- The `hexToBinary` of `des.js`. -/
def hexToBinary (hex : List Char) : List Bool :=
  hex.flatMap (fun h => bits4 (hexVal h))

/-- `parseInt(s, 2)` over a binary-digit string. -/
def bitsToNat (bs : List Bool) : Nat :=
  bs.foldl (fun a b => 2 * a + b.toNat) 0

/-- The `binaryToHex` of `des.js`: one uppercase hex digit per 4-bit
group. -/
def binaryToHex (b : List Bool) : List Char :=
  (chunks 4 b).map (fun c => hexDigitChar (bitsToNat c))

/-- The `permute` of `des.js`: `table.map(pos => input[pos - 1])`. -/
def permute (input : List Bool) (table : List Nat) : List Bool :=
  table.map (fun pos => input.getD (pos - 1) false)

/-- The `leftShift` of `des.js`: `bits.slice(n) + bits.slice(0, n)`. -/
def leftShift (bits : List Bool) (n : Nat) : List Bool :=
  bits.drop n ++ bits.take n

/-- The `xor` of `des.js`: maps over `a`, xoring each bit with `b[i]`
(an out-of-range `b[i]` is coerced to `0`, leaving the bit unchanged). -/
def xorBits : List Bool → List Bool → List Bool
  | [], _ => []
  | a :: arest, [] => a :: xorBits arest []
  | a :: arest, b :: brest => (Bool.xor a b) :: xorBits arest brest

/-- Worker for `generateKeys`: the loop body over the sixteen entries of
`SHIFTS`, with the rotated halves carried into the next round. -/
def genKeysGo (C D : List Bool) : List Nat → List (List Bool)
  | [] => []
  | s :: rest =>
    let C2 := leftShift C s
    let D2 := leftShift D s
    permute (C2 ++ D2) PC2 :: genKeysGo C2 D2 rest

/-- The `generateKeys` of `des.js`. -/
def generateKeys (key : List Char) : List (List Bool) :=
  let keyBinary := hexToBinary key
  let permutedKey := permute keyBinary PC1
  let C := permutedKey.take 28
  let D := (permutedKey.drop 28).take 28
  genKeysGo C D SHIFTS

/-- Row index of an S-box lookup: `parseInt(block[0] + block[5], 2)`. -/
def sBoxRow (block : List Bool) : Nat :=
  bitsToNat [block.getD 0 false, block.getD 5 false]

/-- Column index of an S-box lookup: `parseInt(block.substr(1, 4), 2)`. -/
def sBoxCol (block : List Bool) : Nat :=
  bitsToNat ((block.drop 1).take 4)

/-- The `feistel` round function of `des.js`. -/
def feistel (R roundKey : List Bool) : List Bool :=
  let expanded := permute R E
  let xored := xorBits expanded roundKey
  let sBoxOutput := (List.range 8).flatMap (fun i =>
    let block := (xored.drop (i * 6)).take 6
    bits4 (((S_BOXES.getD i []).getD (sBoxRow block) []).getD (sBoxCol block) 0))
  permute sBoxOutput P

/-- One round of the Feistel loop in `desCore`:
`newL = R; newR = L XOR f(R, key)`. -/
def roundStep (LR : List Bool × List Bool) (k : List Bool) : List Bool × List Bool :=
  (LR.2, xorBits LR.1 (feistel LR.2 k))

/-- The `desCore` of `des.js`: initial permutation, sixteen Feistel
rounds, final swap, final permutation. -/
def desCore (block : List Bool) (keys : List (List Bool)) : List Bool :=
  let permuted := permute block IP
  let L := permuted.take 32
  let R := (permuted.drop 32).take 32
  let final := keys.foldl roundStep (L, R)
  permute (final.2 ++ final.1) FP

/-- The `padBytes` of `des.js` (PKCS#7 for 8-byte blocks). -/
def padBytes (bytes : List Nat) : List Nat :=
  let padLen := 8 - bytes.length % 8
  bytes ++ List.replicate padLen padLen

/-- The `unpadBytes` of `des.js` (an empty input reads `undefined`,
coerced to `0`, and is returned unchanged). -/
def unpadBytes (bytes : List Nat) : List Nat :=
  let padLen := bytes.getD (bytes.length - 1) 0
  if 0 < padLen ∧ padLen ≤ 8 then bytes.take (bytes.length - padLen) else bytes

/-- Key test of the regex `/^[0-9A-Fa-f]{16}$/`. -/
def validKey (key : List Char) : Bool :=
  key.length == 16 && key.all isHexChar

/-- The per-block byte pipeline shared by the `encrypt` and `decrypt`
loops of `des.js`: bytes → hex → binary → `desCore` → hex → bytes. -/
def processBlockBytes (keys : List (List Bool)) (blockBytes : List Nat) : List Nat :=
  hexToBytes (binaryToHex (desCore (hexToBinary (bytesToHex blockBytes)) keys))

/-- The `encrypt` of `des.js`. -/
def encrypt (plaintext key : List Char) : Except CryptoError (List Char) :=
  if !(validKey key) then .error .invalidKey
  else
    let keys := generateKeys key
    let plaintextBytes := padBytes (stringToBytes plaintext)
    let ciphertext := ((chunks 8 plaintextBytes).map (processBlockBytes keys)).flatten
    .ok (bytesToHex ciphertext)

/-- Ciphertext test of `decrypt`: the regex `/^[0-9A-Fa-f]+$/` plus the
length-multiple-of-16 check. -/
def validCiphertext (ct : List Char) : Bool :=
  (!ct.isEmpty) && ct.all isHexChar && ct.length % 16 == 0

/-- The `decrypt` of `des.js`. -/
def decrypt (ciphertext key : List Char) : Except CryptoError (List Char) :=
  if !(validKey key) then .error .invalidKey
  else if !(validCiphertext ciphertext) then .error .invalidCiphertext
  else
    let keys := (generateKeys key).reverse
    let ciphertextBytes := hexToBytes ciphertext
    let plaintextBytes := ((chunks 8 ciphertextBytes).map (processBlockBytes keys)).flatten
    .ok (bytesToString (unpadBytes plaintextBytes))

end DES

namespace DES

theorem permute_length (input : List Bool) (table : List Nat) :
    (permute input table).length = table.length :=
  List.length_map _ _

theorem length_xorBits : ∀ (a b : List Bool), (xorBits a b).length = a.length
  | [], b => by cases b <;> rfl
  | a :: arest, [] => by simp [xorBits, length_xorBits arest []]
  | a :: arest, b :: brest => by simp [xorBits, length_xorBits arest brest]

theorem xorBits_nil_right : ∀ (a : List Bool), xorBits a [] = a
  | [] => rfl
  | a :: arest => by simp [xorBits, xorBits_nil_right arest]

theorem xorBits_cancel : ∀ (a b : List Bool), xorBits (xorBits a b) b = a
  | [], b => by cases b <;> rfl
  | a :: arest, [] => by simp [xorBits, xorBits_nil_right]
  | a :: arest, b :: brest => by simp [xorBits, xorBits_cancel arest brest]

theorem FP_getD_bound : ∀ i < 64, FP.getD i 0 - 1 < 64 := by decide

theorem IP_getD_bound : ∀ i < 64, IP.getD i 0 - 1 < 64 := by decide

theorem IP_FP_comp : ∀ i < 64, IP.getD (FP.getD i 0 - 1) 0 - 1 = i := by decide

theorem FP_IP_comp : ∀ i < 64, FP.getD (IP.getD i 0 - 1) 0 - 1 = i := by decide

/-- Elementwise description of `permute` at an in-range index. -/
theorem permute_getD (input : List Bool) (table : List Nat) (i : Nat) (hi : i < table.length) :
    (permute input table).getD i false = input.getD (table.getD i 0 - 1) false := by
  unfold permute
  rw [List.getD_eq_getElem _ _ (by rw [List.length_map]; exact hi), List.getElem_map,
    ← List.getD_eq_getElem table 0 hi]

/-- Extensionality via `getD` at a fixed default. -/
theorem ext_getD {α : Type} (d : α) (a b : List α) (hlen : a.length = b.length)
    (h : ∀ i < a.length, a.getD i d = b.getD i d) : a = b := by
  apply List.ext_getElem hlen
  intro i h1 h2
  have hh := h i h1
  rwa [List.getD_eq_getElem a d h1, List.getD_eq_getElem b d h2] at hh

/-- Composing two 64-entry permutation tables whose index composite is
the identity gives back any 64-bit input. -/
theorem permute_permute_id (t1 t2 : List Nat) (h1 : t1.length = 64) (h2 : t2.length = 64)
    (hbound : ∀ i < 64, t2.getD i 0 - 1 < 64)
    (hcomp : ∀ i < 64, t1.getD (t2.getD i 0 - 1) 0 - 1 = i)
    (b : List Bool) (hb : b.length = 64) :
    permute (permute b t1) t2 = b := by
  apply ext_getD false
  · rw [permute_length, h2, hb]
  · intro i hilen
    have hi : i < 64 := by rw [permute_length, h2] at hilen; exact hilen
    rw [permute_getD _ t2 i (by omega), permute_getD b t1 _ (by rw [h1]; exact hbound i hi),
      hcomp i hi]

/-- Applying `IP` then `FP` is the identity on 64-bit inputs. -/
theorem permute_IP_FP (b : List Bool) (hb : b.length = 64) :
    permute (permute b IP) FP = b :=
  permute_permute_id IP FP (by decide) (by decide) FP_getD_bound IP_FP_comp b hb

/-- Applying `FP` then `IP` is the identity on 64-bit inputs. -/
theorem permute_FP_IP (b : List Bool) (hb : b.length = 64) :
    permute (permute b FP) IP = b :=
  permute_permute_id FP IP (by decide) (by decide) IP_getD_bound FP_IP_comp b hb

/-- Folding the rounds with the reversed key list undoes folding them
with the key list (after the Feistel half-swap). -/
theorem foldl_roundStep_reverse : ∀ (keys : List (List Bool)) (L R : List Bool),
    keys.reverse.foldl roundStep (keys.foldl roundStep (L, R)).swap = (R, L)
  | [], L, R => rfl
  | k :: rest, L, R => by
    rw [List.reverse_cons, List.foldl_append, List.foldl_cons, List.foldl_cons]
    rw [foldl_roundStep_reverse rest (roundStep (L, R) k).1 (roundStep (L, R) k).2]
    show roundStep (xorBits L (feistel R k), R) k = (R, L)
    show (R, xorBits (xorBits L (feistel R k)) (feistel R k)) = (R, L)
    rw [xorBits_cancel]

theorem foldl_roundStep_length : ∀ (keys : List (List Bool)) (L R : List Bool),
    L.length = 32 → R.length = 32 →
    (keys.foldl roundStep (L, R)).1.length = 32 ∧ (keys.foldl roundStep (L, R)).2.length = 32
  | [], _, _, h1, h2 => ⟨h1, h2⟩
  | k :: rest, L, R, h1, h2 => by
    rw [List.foldl_cons]
    exact foldl_roundStep_length rest _ _ h2 (by rw [length_xorBits]; exact h1)

/-- Let-free form of `desCore`. -/
theorem desCore_eq (block : List Bool) (keys : List (List Bool)) :
    desCore block keys =
      permute ((keys.foldl roundStep ((permute block IP).take 32,
          ((permute block IP).drop 32).take 32)).2 ++
        (keys.foldl roundStep ((permute block IP).take 32,
          ((permute block IP).drop 32).take 32)).1) FP := rfl

/-- The Feistel involution: running `desCore` with any key list and then
with the reversed key list restores the 64-bit block. -/
theorem desCore_involution (block : List Bool) (hb : block.length = 64)
    (keys : List (List Bool)) :
    desCore (desCore block keys) keys.reverse = block := by
  have hpl : (permute block IP).length = 64 := by
    rw [permute_length]
    rfl
  have hLlen : ((permute block IP).take 32).length = 32 := by
    rw [List.length_take]
    omega
  have hRlen : (((permute block IP).drop 32).take 32).length = 32 := by
    rw [List.length_take, List.length_drop]
    omega
  obtain ⟨hf1, hf2⟩ := foldl_roundStep_length keys _ _ hLlen hRlen
  rw [desCore_eq block keys, desCore_eq]
  rw [permute_FP_IP _ (by rw [List.length_append, hf1, hf2])]
  rw [List.take_left' hf2, List.drop_left' hf2, List.take_of_length_le (le_of_eq hf1)]
  rw [show ((keys.foldl roundStep ((permute block IP).take 32,
        ((permute block IP).drop 32).take 32)).2,
      (keys.foldl roundStep ((permute block IP).take 32,
        ((permute block IP).drop 32).take 32)).1)
    = (keys.foldl roundStep ((permute block IP).take 32,
        ((permute block IP).drop 32).take 32)).swap from rfl]
  rw [foldl_roundStep_reverse keys _ _]
  show permute ((permute block IP).take 32 ++ ((permute block IP).drop 32).take 32) FP = block
  rw [show (List.drop 32 (permute block IP)).take 32 = List.drop 32 (permute block IP) from
    List.take_of_length_le (by rw [List.length_drop]; omega)]
  rw [List.take_append_drop]
  exact permute_IP_FP block hb

end DES

/-- Length of a concatenation of constant-length pieces. -/
theorem length_flatten_const {α : Type} (n : Nat) :
    ∀ (L : List (List α)), (∀ x ∈ L, x.length = n) → L.flatten.length = n * L.length
  | [], _ => by simp
  | x :: rest, h => by
    rw [List.flatten_cons, List.length_append, List.length_cons,
      length_flatten_const n rest (fun y hy => h y (List.mem_cons_of_mem x hy)),
      h x (List.mem_cons_self x rest), Nat.mul_succ]
    omega

namespace DES

theorem bits4_length (n : Nat) : (bits4 n).length = 4 := rfl

theorem foldl_bits_lt : ∀ (c : List Bool) (acc : Nat),
    c.foldl (fun a b => 2 * a + b.toNat) acc < (acc + 1) * 2 ^ c.length
  | [], acc => by simp
  | b :: rest, acc => by
    rw [List.foldl_cons]
    have ih := foldl_bits_lt rest (2 * acc + b.toNat)
    have hb : b.toNat ≤ 1 := by cases b <;> simp
    have hstep : (2 * acc + b.toNat + 1) * 2 ^ rest.length ≤ (acc + 1) * 2 ^ (b :: rest).length := by
      rw [List.length_cons, pow_succ]
      have h2 : 2 * acc + b.toNat + 1 ≤ (acc + 1) * 2 := by omega
      calc (2 * acc + b.toNat + 1) * 2 ^ rest.length
          ≤ (acc + 1) * 2 * 2 ^ rest.length := Nat.mul_le_mul_right _ h2
        _ = (acc + 1) * (2 ^ rest.length * 2) := by ring
    exact Nat.lt_of_lt_of_le ih hstep

theorem bitsToNat_lt (c : List Bool) (h : c.length ≤ 4) : bitsToNat c < 16 := by
  have h1 := foldl_bits_lt c 0
  have h2 : (2 : Nat) ^ c.length ≤ 2 ^ 4 := Nat.pow_le_pow_right (by omega) h
  unfold bitsToNat
  calc c.foldl (fun a b => 2 * a + b.toNat) 0 < (0 + 1) * 2 ^ c.length := h1
    _ = 2 ^ c.length := by ring
    _ ≤ 16 := h2

theorem bits4_bitsToNat : ∀ (c : List Bool), c.length = 4 → bits4 (bitsToNat c) = c
  | [a, b, c, d], _ => by cases a <;> cases b <;> cases c <;> cases d <;> decide

theorem bitsToNat_bits4 : ∀ v < 16, bitsToNat (bits4 v) = v := by decide

theorem hexToBinary_length (hex : List Char) : (hexToBinary hex).length = 4 * hex.length := by
  unfold hexToBinary
  rw [List.flatMap_def, length_flatten_const 4 (hex.map (fun h => bits4 (hexVal h)))
    (by
      intro x hx
      rw [List.mem_map] at hx
      obtain ⟨c, _, hc⟩ := hx
      rw [← hc]
      rfl),
    List.length_map]

theorem binaryToHex_length (b : List Bool) (h : 4 ∣ b.length) :
    (binaryToHex b).length = b.length / 4 := by
  unfold binaryToHex
  rw [List.length_map, chunks_count 4 (by omega) b h]

theorem binaryToHex_mem (b : List Bool) :
    ∀ c ∈ binaryToHex b, ∃ v, v < 16 ∧ c = hexDigitChar v := by
  intro c hc
  unfold binaryToHex at hc
  rw [List.mem_map] at hc
  obtain ⟨piece, hp, hpc⟩ := hc
  exact ⟨bitsToNat piece, bitsToNat_lt piece (chunks_length_le 4 b piece hp), hpc.symm⟩

/-- Converting a bit string (with length a multiple of 4) to hex and back
is the identity. -/
theorem hexToBinary_binaryToHex (bits : List Bool) (h : 4 ∣ bits.length) :
    hexToBinary (binaryToHex bits) = bits := by
  unfold hexToBinary binaryToHex
  rw [List.flatMap_def, List.map_map]
  have key : ∀ piece ∈ chunks 4 bits,
      ((fun h => bits4 (hexVal h)) ∘ (fun c => hexDigitChar (bitsToNat c))) piece = piece := by
    intro piece hp
    have hlt : bitsToNat piece < 16 := bitsToNat_lt piece (chunks_length_le 4 bits piece hp)
    show bits4 (hexVal (hexDigitChar (bitsToNat piece))) = piece
    rw [hexVal_hexDigitChar _ hlt]
    exact bits4_bitsToNat piece (chunks_length_eq 4 (by omega) bits piece hp h)
  rw [List.map_congr_left key, List.map_id']
  exact join_chunks 4 (by omega) bits

/-- Converting a hex string made of hex-digit characters to binary and
back is the identity. -/
theorem binaryToHex_hexToBinary (hex : List Char)
    (h : ∀ c ∈ hex, ∃ v, v < 16 ∧ c = hexDigitChar v) :
    binaryToHex (hexToBinary hex) = hex := by
  unfold hexToBinary binaryToHex
  rw [List.flatMap_def,
    chunks_join_map 4 (by omega) (fun h => bits4 (hexVal h)) hex (fun x _ => rfl),
    List.map_map]
  have key : ∀ c ∈ hex,
      ((fun c => hexDigitChar (bitsToNat c)) ∘ (fun h => bits4 (hexVal h))) c = c := by
    intro c hc
    obtain ⟨v, hv, hcv⟩ := h c hc
    show hexDigitChar (bitsToNat (bits4 (hexVal c))) = c
    subst hcv
    rw [hexVal_hexDigitChar v hv, bitsToNat_bits4 v hv]
  rw [List.map_congr_left key, List.map_id']

theorem desCore_length (block : List Bool) (keys : List (List Bool)) :
    (desCore block keys).length = 64 := by
  rw [desCore_eq, permute_length]
  rfl

/-- The per-block pipeline always yields 8 bytes. -/
theorem processBlockBytes_length (keys : List (List Bool)) (B : List Nat) :
    (processBlockBytes keys B).length = 8 := by
  unfold processBlockBytes
  rw [hexToBytes_length _ (by rw [binaryToHex_length _ (by rw [desCore_length]; omega), desCore_length]; omega),
    binaryToHex_length _ (by rw [desCore_length]; omega), desCore_length]

theorem processBlockBytes_lt (keys : List (List Bool)) (B : List Nat) :
    ∀ b ∈ processBlockBytes keys B, b < 256 := by
  unfold processBlockBytes
  exact hexToBytes_lt _

/-- Applying the per-block pipeline with reversed keys undoes applying it
with the keys. -/
theorem processBlockBytes_inverse (keys : List (List Bool)) (B : List Nat)
    (hlen : B.length = 8) (hB : ∀ b ∈ B, b < 256) :
    processBlockBytes keys.reverse (processBlockBytes keys B) = B := by
  unfold processBlockBytes
  have hbits : (hexToBinary (bytesToHex B)).length = 64 := by
    rw [hexToBinary_length, bytesToHex_length, hlen]
  have henc : (desCore (hexToBinary (bytesToHex B)) keys).length = 64 := desCore_length _ _
  rw [bytesToHex_hexToBytes _ (binaryToHex_mem _)
    (by rw [binaryToHex_length _ (by rw [henc]; omega), henc]; omega)]
  rw [hexToBinary_binaryToHex _ (by rw [henc]; omega)]
  rw [desCore_involution _ hbits keys]
  rw [binaryToHex_hexToBinary _ (bytesToHex_mem B hB)]
  exact hexToBytes_bytesToHex B hB

theorem padBytes_length (B : List Nat) :
    (padBytes B).length = B.length + (8 - B.length % 8) := by
  unfold padBytes
  rw [List.length_append, List.length_replicate]

theorem padBytes_dvd (B : List Nat) : 8 ∣ (padBytes B).length := by
  rw [padBytes_length]
  omega

theorem padBytes_pos (B : List Nat) : 8 ≤ (padBytes B).length := by
  have := padBytes_dvd B
  rcases this with ⟨k, hk⟩
  rcases k with _ | k'
  · rw [padBytes_length] at hk; omega
  · rw [hk, Nat.mul_succ]; omega

theorem padBytes_lt (B : List Nat) (h : ∀ b ∈ B, b < 256) :
    ∀ b ∈ padBytes B, b < 256 := by
  intro b hb
  unfold padBytes at hb
  rcases List.mem_append.mp hb with h1 | h1
  · exact h b h1
  · have := List.eq_of_mem_replicate h1
    omega

/-- Removing the padding that `padBytes` appended restores the input. -/
theorem unpadBytes_padBytes (B : List Nat) : unpadBytes (padBytes B) = B := by
  unfold unpadBytes padBytes
  have hlen : (B ++ List.replicate (8 - B.length % 8) (8 - B.length % 8)).length
      = B.length + (8 - B.length % 8) := by
    rw [List.length_append, List.length_replicate]
  have hmod : B.length % 8 < 8 := Nat.mod_lt _ (by omega)
  have hgetD : (B ++ List.replicate (8 - B.length % 8) (8 - B.length % 8)).getD
      ((B ++ List.replicate (8 - B.length % 8) (8 - B.length % 8)).length - 1) 0
      = 8 - B.length % 8 := by
    rw [hlen, List.getD_append_right _ _ _ _ (by omega)]
    rw [List.getD_eq_getElem _ _ (by rw [List.length_replicate]; omega), List.getElem_replicate]
  rw [hgetD]
  rw [if_pos (by omega)]
  rw [hlen]
  rw [show B.length + (8 - B.length % 8) - (8 - B.length % 8) = B.length by omega]
  rw [List.take_left' rfl]

theorem stringToBytes_lt (pt : List Char) (hpt : ∀ c ∈ pt, c.toNat ≤ 255) :
    ∀ b ∈ stringToBytes pt, b < 256 := by
  intro b hb
  unfold stringToBytes at hb
  rw [List.mem_map] at hb
  obtain ⟨c, hc, hcb⟩ := hb
  have := hpt c hc
  omega

theorem cipherBytes_lt (keys : List (List Bool)) (ptB : List Nat) :
    ∀ b ∈ ((chunks 8 ptB).map (processBlockBytes keys)).flatten, b < 256 := by
  intro b hb
  rw [List.mem_flatten] at hb
  obtain ⟨blk, hblk, hbmem⟩ := hb
  rw [List.mem_map] at hblk
  obtain ⟨c, _, hc⟩ := hblk
  exact processBlockBytes_lt keys c b (hc ▸ hbmem)

theorem cipherBytes_length (keys : List (List Bool)) (ptB : List Nat) (h : 8 ∣ ptB.length) :
    (((chunks 8 ptB).map (processBlockBytes keys)).flatten).length = ptB.length := by
  rw [length_flatten_const 8 ((chunks 8 ptB).map (processBlockBytes keys))
    (by
      intro x hx
      rw [List.mem_map] at hx
      obtain ⟨c, _, hc⟩ := hx
      rw [← hc]
      exact processBlockBytes_length _ _)]
  rw [List.length_map, chunks_count 8 (by omega) ptB h]
  exact Nat.mul_div_cancel' h

/-- Byte-level DES round trip over any number of blocks. -/
theorem decryptBytes_encryptBytes (key : List Char) (ptB : List Nat)
    (hdvd : 8 ∣ ptB.length) (hlt : ∀ b ∈ ptB, b < 256) :
    ((chunks 8 (((chunks 8 ptB).map (processBlockBytes (generateKeys key))).flatten)).map
      (processBlockBytes ((generateKeys key).reverse))).flatten = ptB := by
  rw [chunks_join_map 8 (by omega) (processBlockBytes (generateKeys key)) (chunks 8 ptB)
    (fun x _ => processBlockBytes_length _ _)]
  rw [List.map_map]
  have key2 : ∀ c ∈ chunks 8 ptB,
      (processBlockBytes (generateKeys key).reverse ∘ processBlockBytes (generateKeys key)) c
        = c := by
    intro c hc
    exact processBlockBytes_inverse _ c (chunks_length_eq 8 (by omega) ptB c hc hdvd)
      (fun b hb => hlt b (chunks_mem_mem 8 ptB c hc b hb))
  rw [List.map_congr_left key2, List.map_id']
  exact join_chunks 8 (by omega) ptB

theorem encrypt_eq (pt key : List Char) (hkey : validKey key = true) :
    encrypt pt key = .ok (bytesToHex (((chunks 8 (padBytes (stringToBytes pt))).map
      (processBlockBytes (generateKeys key))).flatten)) := by
  unfold encrypt
  rw [hkey]
  rfl

theorem decrypt_eq (ct key : List Char) (hkey : validKey key = true)
    (hct : validCiphertext ct = true) :
    decrypt ct key = .ok (bytesToString (unpadBytes
      (((chunks 8 (hexToBytes ct)).map
        (processBlockBytes ((generateKeys key).reverse))).flatten))) := by
  unfold decrypt
  rw [hkey, hct]
  rfl

/-- The ciphertext that `encrypt` produces always passes `decrypt`'s
format validation. -/
theorem validCiphertext_encrypt (pt key : List Char) :
    validCiphertext (bytesToHex (((chunks 8 (padBytes (stringToBytes pt))).map
      (processBlockBytes (generateKeys key))).flatten)) = true := by
  have hdvd := padBytes_dvd (stringToBytes pt)
  have hlen := cipherBytes_length (generateKeys key) (padBytes (stringToBytes pt)) hdvd
  have hpos := padBytes_pos (stringToBytes pt)
  unfold validCiphertext
  rw [Bool.and_eq_true, Bool.and_eq_true]
  refine ⟨⟨?_, ?_⟩, ?_⟩
  · rw [Bool.not_eq_true']
    rw [List.isEmpty_eq_false_iff_exists_mem]
    have h2 : (bytesToHex (((chunks 8 (padBytes (stringToBytes pt))).map
        (processBlockBytes (generateKeys key))).flatten)).length ≥ 16 := by
      rw [bytesToHex_length, hlen]
      omega
    rcases hx : (bytesToHex (((chunks 8 (padBytes (stringToBytes pt))).map
        (processBlockBytes (generateKeys key))).flatten)) with _ | ⟨c, rest⟩
    · rw [hx] at h2; simp at h2
    · exact ⟨c, by simp⟩
  · rw [List.all_eq_true]
    intro c hc
    exact bytesToHex_isHex _ c hc
  · rw [Nat.beq_eq_true_eq, bytesToHex_length, hlen]
    rcases hdvd with ⟨k, hk⟩
    rw [hk]
    omega

/-- DES round trip: for a Latin-1 plaintext and a well-formed key,
`decrypt (encrypt pt key) key` succeeds and returns `pt`. -/
theorem des_roundtrip (pt key : List Char) (hpt : ∀ c ∈ pt, c.toNat ≤ 255)
    (hkey : validKey key = true) :
    ∃ ct, encrypt pt key = .ok ct ∧ decrypt ct key = .ok pt := by
  refine ⟨_, encrypt_eq pt key hkey, ?_⟩
  rw [decrypt_eq _ key hkey (validCiphertext_encrypt pt key)]
  rw [hexToBytes_bytesToHex _ (cipherBytes_lt _ _)]
  rw [decryptBytes_encryptBytes key (padBytes (stringToBytes pt)) (padBytes_dvd _)
    (padBytes_lt _ (stringToBytes_lt pt hpt))]
  rw [unpadBytes_padBytes, bytesToString_stringToBytes]

theorem leftShift_length (bits : List Bool) (n : Nat) :
    (leftShift bits n).length = bits.length := by
  unfold leftShift
  rw [List.length_append, List.length_drop, List.length_take]
  omega

/-- Two successive left rotations compose additively (as long as the
total stays within the word length). -/
theorem leftShift_leftShift (bits : List Bool) (a b : Nat) (h : a + b ≤ bits.length) :
    leftShift (leftShift bits a) b = leftShift bits (a + b) := by
  unfold leftShift
  rw [List.drop_append_of_le_length (by rw [List.length_drop]; omega),
    List.take_append_of_le_length (by rw [List.length_drop]; omega),
    List.drop_drop, List.take_add, List.append_assoc]

theorem genKeysGo_length : ∀ (shifts : List Nat) (C D : List Bool),
    (genKeysGo C D shifts).length = shifts.length
  | [], _, _ => rfl
  | s :: rest, C, D => by
    simp only [genKeysGo, List.length_cons, genKeysGo_length rest]

/-- Accumulated-rotation characterization of the key-schedule loop: the
subkey emitted in round `i` selects (via `PC2`) from the halves rotated
by the total of the first `i + 1` shift amounts — the rotation state is
carried across rounds. -/
theorem genKeysGo_getD : ∀ (shifts : List Nat) (i : Nat) (C D : List Bool),
    C.length = 28 → D.length = 28 → i < shifts.length →
    (shifts.take (i + 1)).sum ≤ 28 →
    (genKeysGo C D shifts).getD i [] =
      permute (leftShift C ((shifts.take (i + 1)).sum) ++
        leftShift D ((shifts.take (i + 1)).sum)) PC2
  | [], i, _, _, _, _, hi, _ => by simp at hi
  | s :: rest, 0, C, D, hC, hD, _, _ => by
    show permute (leftShift C s ++ leftShift D s) PC2 = _
    rw [List.take_succ_cons, List.take_zero, List.sum_cons, List.sum_nil, Nat.add_zero]
  | s :: rest, i + 1, C, D, hC, hD, hi, hsum => by
    rw [List.take_succ_cons, List.sum_cons] at hsum ⊢
    show (genKeysGo (leftShift C s) (leftShift D s) rest).getD (i + 1 - 1) [] = _
    rw [show i + 1 - 1 = i from rfl]
    rw [genKeysGo_getD rest i (leftShift C s) (leftShift D s)
      (by rw [leftShift_length, hC]) (by rw [leftShift_length, hD])
      (by simpa using hi) (by omega)]
    rw [leftShift_leftShift C s _ (by omega), leftShift_leftShift D s _ (by omega)]

theorem bytesToHex_flatten : ∀ (L : List (List Nat)),
    bytesToHex L.flatten = (L.map bytesToHex).flatten
  | [] => rfl
  | x :: rest => by
    rw [List.flatten_cons, bytesToHex_append, List.map_cons, List.flatten_cons,
      bytesToHex_flatten rest]

/-- The ciphertext hex string, split into 16-hex-character groups, is the
image of the padded plaintext blocks under the per-block pipeline — block
`j` of the ciphertext depends only on block `j` of the padded plaintext. -/
theorem encrypt_chunks (pt key : List Char) (hkey : validKey key = true) :
    ∃ ct, encrypt pt key = .ok ct ∧
      chunks 16 ct = (chunks 8 (padBytes (stringToBytes pt))).map
        (fun B => bytesToHex (processBlockBytes (generateKeys key) B)) := by
  refine ⟨_, encrypt_eq pt key hkey, ?_⟩
  rw [bytesToHex_flatten, List.map_map]
  rw [chunks_join_map 16 (by omega)
    (bytesToHex ∘ processBlockBytes (generateKeys key))
    (chunks 8 (padBytes (stringToBytes pt)))
    (by
      intro x _
      show (bytesToHex (processBlockBytes (generateKeys key) x)).length = 16
      rw [bytesToHex_length, processBlockBytes_length])]
  rfl

theorem chunksPad_length_eq (pt1 pt2 : List Char) (h : pt1.length = pt2.length) :
    (chunks 8 (padBytes (stringToBytes pt1))).length
      = (chunks 8 (padBytes (stringToBytes pt2))).length := by
  rw [chunks_count 8 (by omega) _ (padBytes_dvd _), chunks_count 8 (by omega) _ (padBytes_dvd _),
    padBytes_length, padBytes_length]
  unfold stringToBytes
  rw [List.length_map, List.length_map, h]

end DES

/-- Mapping a function preserves `getD`-agreement at an index. -/
theorem map_getD_congr {α β : Type} (f : α → β) (l1 l2 : List α) (j : Nat) (d : α) (e : β)
    (hlen : l1.length = l2.length) (h : l1.getD j d = l2.getD j d) :
    (l1.map f).getD j e = (l2.map f).getD j e := by
  rcases Nat.lt_or_ge j l1.length with hj | hj
  · rw [List.getD_eq_getElem _ _ (by rw [List.length_map]; exact hj),
      List.getD_eq_getElem _ _ (by rw [List.length_map]; omega),
      List.getElem_map, List.getElem_map]
    congr 1
    rw [← List.getD_eq_getElem l1 d hj, ← List.getD_eq_getElem l2 d (by omega)]
    exact h
  · rw [List.getD_eq_default _ _ (by rw [List.length_map]; omega),
      List.getD_eq_default _ _ (by rw [List.length_map]; omega)]

namespace AES

/-- The forward S-box `S_BOX`. -/
def S_BOX : List Nat :=
  [0x63, 0x7c, 0x77, 0x7b, 0xf2, 0x6b, 0x6f, 0xc5,
   0x30, 0x01, 0x67, 0x2b, 0xfe, 0xd7, 0xab, 0x76,
   0xca, 0x82, 0xc9, 0x7d, 0xfa, 0x59, 0x47, 0xf0,
   0xad, 0xd4, 0xa2, 0xaf, 0x9c, 0xa4, 0x72, 0xc0,
   0xb7, 0xfd, 0x93, 0x26, 0x36, 0x3f, 0xf7, 0xcc,
   0x34, 0xa5, 0xe5, 0xf1, 0x71, 0xd8, 0x31, 0x15,
   0x04, 0xc7, 0x23, 0xc3, 0x18, 0x96, 0x05, 0x9a,
   0x07, 0x12, 0x80, 0xe2, 0xeb, 0x27, 0xb2, 0x75,
   0x09, 0x83, 0x2c, 0x1a, 0x1b, 0x6e, 0x5a, 0xa0,
   0x52, 0x3b, 0xd6, 0xb3, 0x29, 0xe3, 0x2f, 0x84,
   0x53, 0xd1, 0x00, 0xed, 0x20, 0xfc, 0xb1, 0x5b,
   0x6a, 0xcb, 0xbe, 0x39, 0x4a, 0x4c, 0x58, 0xcf,
   0xd0, 0xef, 0xaa, 0xfb, 0x43, 0x4d, 0x33, 0x85,
   0x45, 0xf9, 0x02, 0x7f, 0x50, 0x3c, 0x9f, 0xa8,
   0x51, 0xa3, 0x40, 0x8f, 0x92, 0x9d, 0x38, 0xf5,
   0xbc, 0xb6, 0xda, 0x21, 0x10, 0xff, 0xf3, 0xd2,
   0xcd, 0x0c, 0x13, 0xec, 0x5f, 0x97, 0x44, 0x17,
   0xc4, 0xa7, 0x7e, 0x3d, 0x64, 0x5d, 0x19, 0x73,
   0x60, 0x81, 0x4f, 0xdc, 0x22, 0x2a, 0x90, 0x88,
   0x46, 0xee, 0xb8, 0x14, 0xde, 0x5e, 0x0b, 0xdb,
   0xe0, 0x32, 0x3a, 0x0a, 0x49, 0x06, 0x24, 0x5c,
   0xc2, 0xd3, 0xac, 0x62, 0x91, 0x95, 0xe4, 0x79,
   0xe7, 0xc8, 0x37, 0x6d, 0x8d, 0xd5, 0x4e, 0xa9,
   0x6c, 0x56, 0xf4, 0xea, 0x65, 0x7a, 0xae, 0x08,
   0xba, 0x78, 0x25, 0x2e, 0x1c, 0xa6, 0xb4, 0xc6,
   0xe8, 0xdd, 0x74, 0x1f, 0x4b, 0xbd, 0x8b, 0x8a,
   0x70, 0x3e, 0xb5, 0x66, 0x48, 0x03, 0xf6, 0x0e,
   0x61, 0x35, 0x57, 0xb9, 0x86, 0xc1, 0x1d, 0x9e,
   0xe1, 0xf8, 0x98, 0x11, 0x69, 0xd9, 0x8e, 0x94,
   0x9b, 0x1e, 0x87, 0xe9, 0xce, 0x55, 0x28, 0xdf,
   0x8c, 0xa1, 0x89, 0x0d, 0xbf, 0xe6, 0x42, 0x68,
   0x41, 0x99, 0x2d, 0x0f, 0xb0, 0x54, 0xbb, 0x16]

/-- The inverse S-box `INV_S_BOX`. -/
def INV_S_BOX : List Nat :=
  [0x52, 0x09, 0x6a, 0xd5, 0x30, 0x36, 0xa5, 0x38,
   0xbf, 0x40, 0xa3, 0x9e, 0x81, 0xf3, 0xd7, 0xfb,
   0x7c, 0xe3, 0x39, 0x82, 0x9b, 0x2f, 0xff, 0x87,
   0x34, 0x8e, 0x43, 0x44, 0xc4, 0xde, 0xe9, 0xcb,
   0x54, 0x7b, 0x94, 0x32, 0xa6, 0xc2, 0x23, 0x3d,
   0xee, 0x4c, 0x95, 0x0b, 0x42, 0xfa, 0xc3, 0x4e,
   0x08, 0x2e, 0xa1, 0x66, 0x28, 0xd9, 0x24, 0xb2,
   0x76, 0x5b, 0xa2, 0x49, 0x6d, 0x8b, 0xd1, 0x25,
   0x72, 0xf8, 0xf6, 0x64, 0x86, 0x68, 0x98, 0x16,
   0xd4, 0xa4, 0x5c, 0xcc, 0x5d, 0x65, 0xb6, 0x92,
   0x6c, 0x70, 0x48, 0x50, 0xfd, 0xed, 0xb9, 0xda,
   0x5e, 0x15, 0x46, 0x57, 0xa7, 0x8d, 0x9d, 0x84,
   0x90, 0xd8, 0xab, 0x00, 0x8c, 0xbc, 0xd3, 0x0a,
   0xf7, 0xe4, 0x58, 0x05, 0xb8, 0xb3, 0x45, 0x06,
   0xd0, 0x2c, 0x1e, 0x8f, 0xca, 0x3f, 0x0f, 0x02,
   0xc1, 0xaf, 0xbd, 0x03, 0x01, 0x13, 0x8a, 0x6b,
   0x3a, 0x91, 0x11, 0x41, 0x4f, 0x67, 0xdc, 0xea,
   0x97, 0xf2, 0xcf, 0xce, 0xf0, 0xb4, 0xe6, 0x73,
   0x96, 0xac, 0x74, 0x22, 0xe7, 0xad, 0x35, 0x85,
   0xe2, 0xf9, 0x37, 0xe8, 0x1c, 0x75, 0xdf, 0x6e,
   0x47, 0xf1, 0x1a, 0x71, 0x1d, 0x29, 0xc5, 0x89,
   0x6f, 0xb7, 0x62, 0x0e, 0xaa, 0x18, 0xbe, 0x1b,
   0xfc, 0x56, 0x3e, 0x4b, 0xc6, 0xd2, 0x79, 0x20,
   0x9a, 0xdb, 0xc0, 0xfe, 0x78, 0xcd, 0x5a, 0xf4,
   0x1f, 0xdd, 0xa8, 0x33, 0x88, 0x07, 0xc7, 0x31,
   0xb1, 0x12, 0x10, 0x59, 0x27, 0x80, 0xec, 0x5f,
   0x60, 0x51, 0x7f, 0xa9, 0x19, 0xb5, 0x4a, 0x0d,
   0x2d, 0xe5, 0x7a, 0x9f, 0x93, 0xc9, 0x9c, 0xef,
   0xa0, 0xe0, 0x3b, 0x4d, 0xae, 0x2a, 0xf5, 0xb0,
   0xc8, 0xeb, 0xbb, 0x3c, 0x83, 0x53, 0x99, 0x61,
   0x17, 0x2b, 0x04, 0x7e, 0xba, 0x77, 0xd6, 0x26,
   0xe1, 0x69, 0x14, 0x63, 0x55, 0x21, 0x0c, 0x7d]

/-- Round constants `RCON`. -/
def RCON : List Nat :=
  [0x00, 0x01, 0x02, 0x04, 0x08, 0x10, 0x20, 0x40, 0x80, 0x1b, 0x36]

/-- Convert a 16-byte block into the 4×4 column-major state (the JS
`bytesToState` loops `c`, `r` over `0..4`). -/
def bytesToState (bytes : List Nat) : List (List Nat) :=
  (List.range 4).map (fun c => (List.range 4).map (fun r => bytes.getD (c * 4 + r) 0))

/-- Read the state back into 16 bytes, column-major. -/
def stateToBytes (state : List (List Nat)) : List Nat :=
  ((List.range 4).map (fun c =>
    (List.range 4).map (fun r => (state.getD c []).getD r 0))).flatten

/-- `state[c][r]` with JS out-of-range reads coerced to `0`. -/
def entry (state : List (List Nat)) (c r : Nat) : Nat :=
  (state.getD c []).getD r 0

/-- `subBytes`: every byte through the S-box. On the 4×4 states that
occur, mapping over the nested lists is the JS double loop. -/
def subBytes (state : List (List Nat)) : List (List Nat) :=
  state.map (fun col => col.map (fun b => S_BOX.getD b 0))

/-- `invSubBytes`: every byte through the inverse S-box. -/
def invSubBytes (state : List (List Nat)) : List (List Nat) :=
  state.map (fun col => col.map (fun b => INV_S_BOX.getD b 0))

/-- `shiftRows`. The JS version rotates rows 1–3 in place through a
`temp` variable; each assignment in its sequence reads a slot that has
not yet been overwritten, so the net effect is the simultaneous
permutation `new[c][r] = old[(c + r) % 4][r]`, written out here. -/
def shiftRows (state : List (List Nat)) : List (List Nat) :=
  [[entry state 0 0, entry state 1 1, entry state 2 2, entry state 3 3],
   [entry state 1 0, entry state 2 1, entry state 3 2, entry state 0 3],
   [entry state 2 0, entry state 3 1, entry state 0 2, entry state 1 3],
   [entry state 3 0, entry state 0 1, entry state 1 2, entry state 2 3]]

/-- `invShiftRows`: the simultaneous form of the JS in-place rotation,
`new[c][r] = old[(c + 4 - r) % 4][r]`. -/
def invShiftRows (state : List (List Nat)) : List (List Nat) :=
  [[entry state 0 0, entry state 3 1, entry state 2 2, entry state 1 3],
   [entry state 1 0, entry state 0 1, entry state 3 2, entry state 2 3],
   [entry state 2 0, entry state 1 1, entry state 0 2, entry state 3 3],
   [entry state 3 0, entry state 2 1, entry state 1 2, entry state 0 3]]

/-- `xtime`: doubling in GF(2^8) (`(a << 1) ^ ((a & 0x80) ? 0x1b : 0)`). -/
def xtime (a : Nat) : Nat :=
  (a <<< 1) ^^^ (if a &&& 0x80 ≠ 0 then 0x1b else 0)

/-- Fuel-driven worker for `gmul`'s `while (b > 0)` loop; the fuel `b`
always suffices because `b` at least halves every iteration. -/
def gmulLoop : Nat → Nat → Nat → Nat → Nat
  | 0, result, _, _ => result
  | fuel + 1, result, temp, b =>
    if b = 0 then result
    else gmulLoop fuel (if b &&& 1 ≠ 0 then result ^^^ temp else result) (xtime temp) (b >>> 1)

/-- `gmul`: Russian-peasant multiplication in GF(2^8), final result
masked to 8 bits. -/
def gmul (a b : Nat) : Nat :=
  gmulLoop b 0 a b &&& 0xff

/-- One column of `mixColumns` (the JS copies the column with `slice()`
before assigning, so the four writes are simultaneous). -/
def mixCol (a : List Nat) : List Nat :=
  [gmul (a.getD 0 0) 2 ^^^ gmul (a.getD 1 0) 3 ^^^ a.getD 2 0 ^^^ a.getD 3 0,
   a.getD 0 0 ^^^ gmul (a.getD 1 0) 2 ^^^ gmul (a.getD 2 0) 3 ^^^ a.getD 3 0,
   a.getD 0 0 ^^^ a.getD 1 0 ^^^ gmul (a.getD 2 0) 2 ^^^ gmul (a.getD 3 0) 3,
   gmul (a.getD 0 0) 3 ^^^ a.getD 1 0 ^^^ a.getD 2 0 ^^^ gmul (a.getD 3 0) 2]

/-- `mixColumns`: each of the four columns through `mixCol`. -/
def mixColumns (state : List (List Nat)) : List (List Nat) :=
  (List.range 4).map (fun c => mixCol (state.getD c []))

/-- One column of `invMixColumns`. -/
def invMixCol (a : List Nat) : List Nat :=
  [gmul (a.getD 0 0) 0x0e ^^^ gmul (a.getD 1 0) 0x0b ^^^
     gmul (a.getD 2 0) 0x0d ^^^ gmul (a.getD 3 0) 0x09,
   gmul (a.getD 0 0) 0x09 ^^^ gmul (a.getD 1 0) 0x0e ^^^
     gmul (a.getD 2 0) 0x0b ^^^ gmul (a.getD 3 0) 0x0d,
   gmul (a.getD 0 0) 0x0d ^^^ gmul (a.getD 1 0) 0x09 ^^^
     gmul (a.getD 2 0) 0x0e ^^^ gmul (a.getD 3 0) 0x0b,
   gmul (a.getD 0 0) 0x0b ^^^ gmul (a.getD 1 0) 0x0d ^^^
     gmul (a.getD 2 0) 0x09 ^^^ gmul (a.getD 3 0) 0x0e]

/-- `invMixColumns`: each of the four columns through `invMixCol`. -/
def invMixColumns (state : List (List Nat)) : List (List Nat) :=
  (List.range 4).map (fun c => invMixCol (state.getD c []))

/-- `addRoundKey`: XOR the state with the 16 round-key bytes. -/
def addRoundKey (state : List (List Nat)) (roundKey : List Nat) : List (List Nat) :=
  (List.range 4).map (fun c => (List.range 4).map (fun r =>
    entry state c r ^^^ roundKey.getD (c * 4 + r) 0))

/-- `rotWord`: rotate a 4-byte word left by one byte. -/
def rotWord (word : List Nat) : List Nat :=
  [word.getD 1 0, word.getD 2 0, word.getD 3 0, word.getD 0 0]

/-- `subWord`: S-box every byte of a word. -/
def subWord (word : List Nat) : List Nat :=
  word.map (fun b => S_BOX.getD b 0)

/-- One step of the `keyExpansion` loop, appending word `w[i]` for
`i = w.length`: take `w[i-1]`, on every fourth word rotate, substitute
and XOR the round constant into byte 0, then XOR into `w[i-4]`. -/
def nextWord (w : List (List Nat)) : List Nat :=
  let i := w.length
  let temp := w.getD (i - 1) []
  let temp2 :=
    if i % 4 = 0 then
      let t := subWord (rotWord temp)
      t.set 0 (t.getD 0 0 ^^^ RCON.getD (i / 4) 0)
    else temp
  (w.getD (i - 4) []).mapIdx (fun j b => b ^^^ temp2.getD j 0)

/-- Runs the expansion loop `n` times. -/
def expandWords : Nat → List (List Nat) → List (List Nat)
  | 0, w => w
  | n + 1, w => expandWords n (w ++ [nextWord w])

/-- The `keyExpansion` of the SPN engine: 4 initial words from the key
bytes, 40 generated words, regrouped into 11 round keys of 16 bytes. -/
def keyExpansion (key : List Char) : List (List Nat) :=
  let keyBytes := hexToBytes key
  let w0 := (List.range 4).map (fun i => (keyBytes.drop (i * 4)).take 4)
  let w := expandWords 40 w0
  (List.range 11).map (fun round =>
    ((List.range 4).map (fun i => w.getD (round * 4 + i) [])).flatten)

/-- `encryptBlock`: AddRoundKey(0), nine rounds of
SubBytes/ShiftRows/MixColumns/AddRoundKey, final round without
MixColumns. -/
def encryptBlock (block : List Nat) (roundKeys : List (List Nat)) : List Nat :=
  let state0 := addRoundKey (bytesToState block) (roundKeys.getD 0 [])
  let state9 := (List.range' 1 9).foldl (fun st round =>
    addRoundKey (mixColumns (shiftRows (subBytes st))) (roundKeys.getD round [])) state0
  stateToBytes (addRoundKey (shiftRows (subBytes state9)) (roundKeys.getD 10 []))

/-- `decryptBlock`: AddRoundKey(10), rounds 9 down to 1 of
InvShiftRows/InvSubBytes/AddRoundKey/InvMixColumns, final round without
InvMixColumns. -/
def decryptBlock (block : List Nat) (roundKeys : List (List Nat)) : List Nat :=
  let state10 := addRoundKey (bytesToState block) (roundKeys.getD 10 [])
  let state1 := (List.range' 1 9).reverse.foldl (fun st round =>
    invMixColumns (addRoundKey (invSubBytes (invShiftRows st)) (roundKeys.getD round []))) state10
  stateToBytes (addRoundKey (invSubBytes (invShiftRows state1)) (roundKeys.getD 0 []))

/-- The SPN engine's `padBytes` (PKCS#7 with a block-size parameter). -/
def padBytes (bytes : List Nat) (blockSize : Nat) : List Nat :=
  let padLen := blockSize - bytes.length % blockSize
  bytes ++ List.replicate padLen padLen

/-- The SPN engine's `unpadBytes`. -/
def unpadBytes (bytes : List Nat) : List Nat :=
  let padLen := bytes.getD (bytes.length - 1) 0
  if 0 < padLen ∧ padLen ≤ 16 then bytes.take (bytes.length - padLen) else bytes

/-- Key test of the regex `/^[0-9A-Fa-f]{32}$/`. -/
def validKey (key : List Char) : Bool :=
  key.length == 32 && key.all isHexChar

/-- Ciphertext test of the SPN `decrypt`: the regex `/^[0-9A-Fa-f]+$/`
plus the length-multiple-of-32 check. -/
def validCiphertext (ct : List Char) : Bool :=
  (!ct.isEmpty) && ct.all isHexChar && ct.length % 32 == 0

/-- The SPN engine's `encrypt`. -/
def encrypt (plaintext key : List Char) : Except CryptoError (List Char) :=
  if !(validKey key) then .error .invalidKey
  else
    let roundKeys := keyExpansion key
    let plaintextBytes := padBytes (stringToBytes plaintext) 16
    let ciphertext := ((chunks 16 plaintextBytes).map
      (fun b => encryptBlock b roundKeys)).flatten
    .ok (bytesToHex ciphertext)

/-- The SPN engine's `decrypt`. -/
def decrypt (ciphertext key : List Char) : Except CryptoError (List Char) :=
  if !(validKey key) then .error .invalidKey
  else if !(validCiphertext ciphertext) then .error .invalidCiphertext
  else
    let roundKeys := keyExpansion key
    let ciphertextBytes := hexToBytes ciphertext
    let plaintextBytes := ((chunks 16 ciphertextBytes).map
      (fun b => decryptBlock b roundKeys)).flatten
    .ok (bytesToString (unpadBytes plaintextBytes))

end AES

theorem nat_xor_left_comm (a b c : Nat) : a ^^^ (b ^^^ c) = b ^^^ (a ^^^ c) := by
  rw [← Nat.xor_assoc, Nat.xor_comm a b, Nat.xor_assoc]

theorem nat_xor_cancel_left (a b : Nat) : a ^^^ (a ^^^ b) = b := by
  rw [← Nat.xor_assoc, Nat.xor_self, Nat.zero_xor]

theorem shiftLeft_xor (a b n : Nat) : (a ^^^ b) <<< n = a <<< n ^^^ b <<< n := by
  apply Nat.eq_of_testBit_eq
  intro i
  simp [Nat.testBit_shiftLeft, Nat.testBit_xor]
  by_cases h : n ≤ i <;> simp [h]

theorem xor_lt_256 {a b : Nat} (ha : a < 256) (hb : b < 256) : a ^^^ b < 256 := by
  have h : a ^^^ b < 2 ^ 8 := Nat.xor_lt_two_pow (n := 8) ha hb
  simpa using h

namespace AES

theorem xtime_xor (x y : Nat) : xtime (x ^^^ y) = xtime x ^^^ xtime y := by
  unfold xtime
  rw [shiftLeft_xor]
  have hx := Nat.and_two_pow x 7
  have hy := Nat.and_two_pow y 7
  have hxy := Nat.and_two_pow (x ^^^ y) 7
  rw [Nat.testBit_xor] at hxy
  have e : (0x80 : Nat) = 2 ^ 7 := by norm_num
  rw [e, hxy, hx, hy]
  cases hbx : x.testBit 7 <;> cases hby : y.testBit 7 <;>
    simp [Nat.xor_assoc, Nat.xor_comm, nat_xor_left_comm, nat_xor_cancel_left,
      Nat.xor_self, Nat.xor_zero, Nat.zero_xor]

theorem gmulLoop_acc : ∀ (f r t b : Nat), gmulLoop f r t b = r ^^^ gmulLoop f 0 t b
  | 0, r, t, b => by simp [gmulLoop]
  | f + 1, r, t, b => by
    simp only [gmulLoop]
    by_cases hb : b = 0
    · simp [hb]
    · rw [if_neg hb, if_neg hb]
      rw [gmulLoop_acc f _ (xtime t) (b >>> 1),
        gmulLoop_acc f (if b &&& 1 ≠ 0 then 0 ^^^ t else 0) (xtime t) (b >>> 1)]
      by_cases h1 : b % 2 = 1 <;>
        simp [h1, Nat.xor_assoc, Nat.and_one_is_mod]

theorem gmulLoop_linear : ∀ (f x y b : Nat),
    gmulLoop f 0 (x ^^^ y) b = gmulLoop f 0 x b ^^^ gmulLoop f 0 y b
  | 0, x, y, b => by simp [gmulLoop]
  | f + 1, x, y, b => by
    simp only [gmulLoop]
    by_cases hb : b = 0
    · simp [hb]
    · rw [if_neg hb, if_neg hb, if_neg hb]
      rw [gmulLoop_acc f _ (xtime (x ^^^ y)) (b >>> 1),
        gmulLoop_acc f _ (xtime x) (b >>> 1), gmulLoop_acc f _ (xtime y) (b >>> 1)]
      rw [xtime_xor, gmulLoop_linear f (xtime x) (xtime y) (b >>> 1)]
      by_cases h1 : b % 2 = 1 <;>
        simp [h1, Nat.and_one_is_mod, Nat.xor_assoc, Nat.xor_comm, nat_xor_left_comm,
          nat_xor_cancel_left, Nat.xor_self, Nat.xor_zero, Nat.zero_xor]

theorem gmul_linear (x y c : Nat) : gmul (x ^^^ y) c = gmul x c ^^^ gmul y c := by
  unfold gmul
  rw [gmulLoop_linear c x y c, Nat.and_xor_distrib_right]

theorem gmul_lt (a b : Nat) : gmul a b < 256 :=
  Nat.lt_succ_of_le (Nat.and_le_right)

set_option maxRecDepth 10000 in
theorem mixInvDiagT : ∀ a < 256,
    gmul (gmul a 2) 0x0e ^^^ gmul a 0x0b ^^^ gmul a 0x0d ^^^ gmul (gmul a 3) 0x09 = a := by
  decide

set_option maxRecDepth 10000 in
theorem mixInvOff1T : ∀ a < 256,
    gmul (gmul a 3) 0x0e ^^^ gmul (gmul a 2) 0x0b ^^^ gmul a 0x0d ^^^ gmul a 0x09 = 0 := by
  decide

set_option maxRecDepth 10000 in
theorem mixInvOff2T : ∀ a < 256,
    gmul a 0x0e ^^^ gmul (gmul a 3) 0x0b ^^^ gmul (gmul a 2) 0x0d ^^^ gmul a 0x09 = 0 := by
  decide

set_option maxRecDepth 10000 in
theorem mixInvOff3T : ∀ a < 256,
    gmul a 0x0e ^^^ gmul a 0x0b ^^^ gmul (gmul a 3) 0x0d ^^^ gmul (gmul a 2) 0x09 = 0 := by
  decide

theorem invMix_entry0 (a0 a1 a2 a3 : Nat) (h0 : a0 < 256) (h1 : a1 < 256)
    (h2 : a2 < 256) (h3 : a3 < 256) :
    gmul (gmul a0 2 ^^^ gmul a1 3 ^^^ a2 ^^^ a3) 0x0e ^^^
      gmul (a0 ^^^ gmul a1 2 ^^^ gmul a2 3 ^^^ a3) 0x0b ^^^
      gmul (a0 ^^^ a1 ^^^ gmul a2 2 ^^^ gmul a3 3) 0x0d ^^^
      gmul (gmul a0 3 ^^^ a1 ^^^ a2 ^^^ gmul a3 2) 0x09 = a0 := by
  have t0 := mixInvDiagT a0 h0
  have t1 := mixInvOff1T a1 h1
  have t2 := mixInvOff2T a2 h2
  have t3 := mixInvOff3T a3 h3
  calc gmul (gmul a0 2 ^^^ gmul a1 3 ^^^ a2 ^^^ a3) 0x0e ^^^
      gmul (a0 ^^^ gmul a1 2 ^^^ gmul a2 3 ^^^ a3) 0x0b ^^^
      gmul (a0 ^^^ a1 ^^^ gmul a2 2 ^^^ gmul a3 3) 0x0d ^^^
      gmul (gmul a0 3 ^^^ a1 ^^^ a2 ^^^ gmul a3 2) 0x09
      = (gmul (gmul a0 2) 0x0e ^^^ gmul a0 0x0b ^^^ gmul a0 0x0d ^^^ gmul (gmul a0 3) 0x09) ^^^
        ((gmul (gmul a1 3) 0x0e ^^^ gmul (gmul a1 2) 0x0b ^^^ gmul a1 0x0d ^^^ gmul a1 0x09) ^^^
        ((gmul a2 0x0e ^^^ gmul (gmul a2 3) 0x0b ^^^ gmul (gmul a2 2) 0x0d ^^^ gmul a2 0x09) ^^^
        (gmul a3 0x0e ^^^ gmul a3 0x0b ^^^ gmul (gmul a3 3) 0x0d ^^^ gmul (gmul a3 2) 0x09))) := by
        simp only [gmul_linear]
        simp [Nat.xor_assoc, Nat.xor_comm, nat_xor_left_comm]
    _ = a0 ^^^ (0 ^^^ (0 ^^^ 0)) := by rw [t0, t1, t2, t3]
    _ = a0 := by simp

end AES

namespace AES

theorem invMix_entry1 (a0 a1 a2 a3 : Nat) (h0 : a0 < 256) (h1 : a1 < 256)
    (h2 : a2 < 256) (h3 : a3 < 256) :
    gmul (gmul a0 2 ^^^ gmul a1 3 ^^^ a2 ^^^ a3) 0x09 ^^^
      gmul (a0 ^^^ gmul a1 2 ^^^ gmul a2 3 ^^^ a3) 0x0e ^^^
      gmul (a0 ^^^ a1 ^^^ gmul a2 2 ^^^ gmul a3 3) 0x0b ^^^
      gmul (gmul a0 3 ^^^ a1 ^^^ a2 ^^^ gmul a3 2) 0x0d = a1 := by
  have t0 := mixInvOff3T a0 h0
  have t1 := mixInvDiagT a1 h1
  have t2 := mixInvOff1T a2 h2
  have t3 := mixInvOff2T a3 h3
  calc gmul (gmul a0 2 ^^^ gmul a1 3 ^^^ a2 ^^^ a3) 0x09 ^^^
      gmul (a0 ^^^ gmul a1 2 ^^^ gmul a2 3 ^^^ a3) 0x0e ^^^
      gmul (a0 ^^^ a1 ^^^ gmul a2 2 ^^^ gmul a3 3) 0x0b ^^^
      gmul (gmul a0 3 ^^^ a1 ^^^ a2 ^^^ gmul a3 2) 0x0d
      = (gmul a0 0x0e ^^^ gmul a0 0x0b ^^^ gmul (gmul a0 3) 0x0d ^^^ gmul (gmul a0 2) 0x09) ^^^
        ((gmul (gmul a1 2) 0x0e ^^^ gmul a1 0x0b ^^^ gmul a1 0x0d ^^^ gmul (gmul a1 3) 0x09) ^^^
        ((gmul (gmul a2 3) 0x0e ^^^ gmul (gmul a2 2) 0x0b ^^^ gmul a2 0x0d ^^^ gmul a2 0x09) ^^^
        (gmul a3 0x0e ^^^ gmul (gmul a3 3) 0x0b ^^^ gmul (gmul a3 2) 0x0d ^^^ gmul a3 0x09))) := by
        simp only [gmul_linear]
        simp [Nat.xor_assoc, Nat.xor_comm, nat_xor_left_comm]
    _ = 0 ^^^ (a1 ^^^ (0 ^^^ 0)) := by rw [t0, t1, t2, t3]
    _ = a1 := by simp

theorem invMix_entry2 (a0 a1 a2 a3 : Nat) (h0 : a0 < 256) (h1 : a1 < 256)
    (h2 : a2 < 256) (h3 : a3 < 256) :
    gmul (gmul a0 2 ^^^ gmul a1 3 ^^^ a2 ^^^ a3) 0x0d ^^^
      gmul (a0 ^^^ gmul a1 2 ^^^ gmul a2 3 ^^^ a3) 0x09 ^^^
      gmul (a0 ^^^ a1 ^^^ gmul a2 2 ^^^ gmul a3 3) 0x0e ^^^
      gmul (gmul a0 3 ^^^ a1 ^^^ a2 ^^^ gmul a3 2) 0x0b = a2 := by
  have t0 := mixInvOff2T a0 h0
  have t1 := mixInvOff3T a1 h1
  have t2 := mixInvDiagT a2 h2
  have t3 := mixInvOff1T a3 h3
  calc gmul (gmul a0 2 ^^^ gmul a1 3 ^^^ a2 ^^^ a3) 0x0d ^^^
      gmul (a0 ^^^ gmul a1 2 ^^^ gmul a2 3 ^^^ a3) 0x09 ^^^
      gmul (a0 ^^^ a1 ^^^ gmul a2 2 ^^^ gmul a3 3) 0x0e ^^^
      gmul (gmul a0 3 ^^^ a1 ^^^ a2 ^^^ gmul a3 2) 0x0b
      = (gmul a0 0x0e ^^^ gmul (gmul a0 3) 0x0b ^^^ gmul (gmul a0 2) 0x0d ^^^ gmul a0 0x09) ^^^
        ((gmul a1 0x0e ^^^ gmul a1 0x0b ^^^ gmul (gmul a1 3) 0x0d ^^^ gmul (gmul a1 2) 0x09) ^^^
        ((gmul (gmul a2 2) 0x0e ^^^ gmul a2 0x0b ^^^ gmul a2 0x0d ^^^ gmul (gmul a2 3) 0x09) ^^^
        (gmul (gmul a3 3) 0x0e ^^^ gmul (gmul a3 2) 0x0b ^^^ gmul a3 0x0d ^^^ gmul a3 0x09))) := by
        simp only [gmul_linear]
        simp [Nat.xor_assoc, Nat.xor_comm, nat_xor_left_comm]
    _ = 0 ^^^ (0 ^^^ (a2 ^^^ 0)) := by rw [t0, t1, t2, t3]
    _ = a2 := by simp

theorem invMix_entry3 (a0 a1 a2 a3 : Nat) (h0 : a0 < 256) (h1 : a1 < 256)
    (h2 : a2 < 256) (h3 : a3 < 256) :
    gmul (gmul a0 2 ^^^ gmul a1 3 ^^^ a2 ^^^ a3) 0x0b ^^^
      gmul (a0 ^^^ gmul a1 2 ^^^ gmul a2 3 ^^^ a3) 0x0d ^^^
      gmul (a0 ^^^ a1 ^^^ gmul a2 2 ^^^ gmul a3 3) 0x09 ^^^
      gmul (gmul a0 3 ^^^ a1 ^^^ a2 ^^^ gmul a3 2) 0x0e = a3 := by
  have t0 := mixInvOff1T a0 h0
  have t1 := mixInvOff2T a1 h1
  have t2 := mixInvOff3T a2 h2
  have t3 := mixInvDiagT a3 h3
  calc gmul (gmul a0 2 ^^^ gmul a1 3 ^^^ a2 ^^^ a3) 0x0b ^^^
      gmul (a0 ^^^ gmul a1 2 ^^^ gmul a2 3 ^^^ a3) 0x0d ^^^
      gmul (a0 ^^^ a1 ^^^ gmul a2 2 ^^^ gmul a3 3) 0x09 ^^^
      gmul (gmul a0 3 ^^^ a1 ^^^ a2 ^^^ gmul a3 2) 0x0e
      = (gmul (gmul a0 3) 0x0e ^^^ gmul (gmul a0 2) 0x0b ^^^ gmul a0 0x0d ^^^ gmul a0 0x09) ^^^
        ((gmul a1 0x0e ^^^ gmul (gmul a1 3) 0x0b ^^^ gmul (gmul a1 2) 0x0d ^^^ gmul a1 0x09) ^^^
        ((gmul a2 0x0e ^^^ gmul a2 0x0b ^^^ gmul (gmul a2 3) 0x0d ^^^ gmul (gmul a2 2) 0x09) ^^^
        (gmul (gmul a3 2) 0x0e ^^^ gmul a3 0x0b ^^^ gmul a3 0x0d ^^^ gmul (gmul a3 3) 0x09))) := by
        simp only [gmul_linear]
        simp [Nat.xor_assoc, Nat.xor_comm, nat_xor_left_comm]
    _ = 0 ^^^ (0 ^^^ (0 ^^^ a3)) := by rw [t0, t1, t2, t3]
    _ = a3 := by simp

end AES

/-- Destructuring a list of length 4. -/
theorem len4_cases {α : Type} (l : List α) (h : l.length = 4) :
    ∃ a b c d, l = [a, b, c, d] := by
  rcases l with _ | ⟨a, l⟩
  · simp only [List.length_nil] at h
    omega
  rcases l with _ | ⟨b, l⟩
  · simp only [List.length_cons, List.length_nil] at h
    omega
  rcases l with _ | ⟨c, l⟩
  · simp only [List.length_cons, List.length_nil] at h
    omega
  rcases l with _ | ⟨d, l⟩
  · simp only [List.length_cons, List.length_nil] at h
    omega
  rcases l with _ | ⟨e, l⟩
  · exact ⟨a, b, c, d, rfl⟩
  · simp only [List.length_cons] at h
    omega

namespace AES

/-- Well-formedness: a 4×4 state. -/
def Wf (st : List (List Nat)) : Prop :=
  st.length = 4 ∧ ∀ col ∈ st, col.length = 4

/-- All state entries are bytes. -/
def Good (st : List (List Nat)) : Prop :=
  ∀ col ∈ st, ∀ b ∈ col, b < 256

theorem state_cases (st : List (List Nat)) (h : Wf st) :
    ∃ c0 c1 c2 c3, st = [c0, c1, c2, c3] ∧ c0.length = 4 ∧ c1.length = 4 ∧
      c2.length = 4 ∧ c3.length = 4 := by
  obtain ⟨h4, hcols⟩ := h
  obtain ⟨c0, c1, c2, c3, rfl⟩ := len4_cases st h4
  exact ⟨c0, c1, c2, c3, rfl, hcols c0 (by simp), hcols c1 (by simp),
    hcols c2 (by simp), hcols c3 (by simp)⟩

theorem wf_range4 (f : Nat → List Nat) (h : ∀ c, (f c).length = 4) :
    Wf ((List.range 4).map f) := by
  constructor
  · simp
  · intro col hcol
    rw [List.mem_map] at hcol
    obtain ⟨c, _, rfl⟩ := hcol
    exact h c

theorem wf_bytesToState (bytes : List Nat) : Wf (bytesToState bytes) :=
  wf_range4 _ (fun c => by simp)

theorem wf_addRoundKey (st : List (List Nat)) (k : List Nat) : Wf (addRoundKey st k) :=
  wf_range4 _ (fun c => by simp)

theorem wf_mixColumns (st : List (List Nat)) : Wf (mixColumns st) :=
  wf_range4 _ (fun c => rfl)

theorem wf_invMixColumns (st : List (List Nat)) : Wf (invMixColumns st) :=
  wf_range4 _ (fun c => rfl)

theorem wf_shiftRows (st : List (List Nat)) : Wf (shiftRows st) := by
  refine ⟨rfl, ?_⟩
  intro col hcol
  simp only [shiftRows, List.mem_cons, List.not_mem_nil, or_false] at hcol
  rcases hcol with rfl | rfl | rfl | rfl <;> rfl

theorem wf_invShiftRows (st : List (List Nat)) : Wf (invShiftRows st) := by
  refine ⟨rfl, ?_⟩
  intro col hcol
  simp only [invShiftRows, List.mem_cons, List.not_mem_nil, or_false] at hcol
  rcases hcol with rfl | rfl | rfl | rfl <;> rfl

theorem wf_subBytes (st : List (List Nat)) (h : Wf st) : Wf (subBytes st) := by
  obtain ⟨h4, hcols⟩ := h
  constructor
  · rw [subBytes, List.length_map, h4]
  · intro col hcol
    rw [subBytes, List.mem_map] at hcol
    obtain ⟨c, hc, rfl⟩ := hcol
    rw [List.length_map]
    exact hcols c hc

theorem getD_lt {l : List Nat} (h : ∀ b ∈ l, b < 256) (j : Nat) : l.getD j 0 < 256 := by
  rcases Nat.lt_or_ge j l.length with hj | hj
  · rw [List.getD_eq_getElem _ _ hj]
    exact h _ (List.getElem_mem hj)
  · rw [List.getD_eq_default _ _ hj]
    omega

theorem getD_col_good {st : List (List Nat)} (hg : Good st) (c : Nat) :
    ∀ b ∈ st.getD c [], b < 256 := by
  rcases Nat.lt_or_ge c st.length with hc | hc
  · rw [List.getD_eq_getElem _ _ hc]
    exact hg _ (List.getElem_mem hc)
  · rw [List.getD_eq_default _ _ hc]
    intro b hb
    simp at hb

theorem entry_lt (st : List (List Nat)) (hg : Good st) (c r : Nat) : entry st c r < 256 :=
  getD_lt (getD_col_good hg c) r

set_option maxRecDepth 10000 in
theorem sbox_lt_bounded : ∀ b < 256, S_BOX.getD b 0 < 256 := by decide

set_option maxRecDepth 10000 in
theorem inv_sbox_lt_bounded : ∀ b < 256, INV_S_BOX.getD b 0 < 256 := by decide

set_option maxRecDepth 10000 in
theorem sbox_lt (b : Nat) : S_BOX.getD b 0 < 256 := by
  rcases Nat.lt_or_ge b 256 with h | h
  · exact sbox_lt_bounded b h
  · rw [List.getD_eq_default _ _ (by rw [show S_BOX.length = 256 from rfl]; omega)]
    omega

set_option maxRecDepth 10000 in
theorem inv_sbox_lt (b : Nat) : INV_S_BOX.getD b 0 < 256 := by
  rcases Nat.lt_or_ge b 256 with h | h
  · exact inv_sbox_lt_bounded b h
  · rw [List.getD_eq_default _ _ (by rw [show INV_S_BOX.length = 256 from rfl]; omega)]
    omega

set_option maxRecDepth 10000 in
theorem invsbox_sbox_bounded : ∀ b < 256, S_BOX.getD (INV_S_BOX.getD b 0) 0 = b := by decide

set_option maxRecDepth 10000 in
theorem sbox_invt : ∀ b < 256, INV_S_BOX.getD (S_BOX.getD b 0) 0 = b := by decide

theorem good_subBytes (st : List (List Nat)) : Good (subBytes st) := by
  intro col hcol b hb
  rw [subBytes, List.mem_map] at hcol
  obtain ⟨c, _, rfl⟩ := hcol
  rw [List.mem_map] at hb
  obtain ⟨x, _, rfl⟩ := hb
  exact sbox_lt x

theorem good_invSubBytes (st : List (List Nat)) : Good (invSubBytes st) := by
  intro col hcol b hb
  rw [invSubBytes, List.mem_map] at hcol
  obtain ⟨c, _, rfl⟩ := hcol
  rw [List.mem_map] at hb
  obtain ⟨x, _, rfl⟩ := hb
  exact inv_sbox_lt x

theorem good_shiftRows (st : List (List Nat)) (hg : Good st) : Good (shiftRows st) := by
  intro col hcol b hb
  simp only [shiftRows, List.mem_cons, List.not_mem_nil, or_false] at hcol
  rcases hcol with rfl | rfl | rfl | rfl <;>
    (simp only [List.mem_cons, List.not_mem_nil, or_false] at hb
     rcases hb with rfl | rfl | rfl | rfl <;> exact entry_lt st hg _ _)

theorem good_invShiftRows (st : List (List Nat)) (hg : Good st) : Good (invShiftRows st) := by
  intro col hcol b hb
  simp only [invShiftRows, List.mem_cons, List.not_mem_nil, or_false] at hcol
  rcases hcol with rfl | rfl | rfl | rfl <;>
    (simp only [List.mem_cons, List.not_mem_nil, or_false] at hb
     rcases hb with rfl | rfl | rfl | rfl <;> exact entry_lt st hg _ _)

theorem good_mixCol (a : List Nat) (h : ∀ b ∈ a, b < 256) : ∀ b ∈ mixCol a, b < 256 := by
  intro b hb
  simp only [mixCol, List.mem_cons, List.not_mem_nil, or_false] at hb
  rcases hb with rfl | rfl | rfl | rfl
  · exact xor_lt_256 (xor_lt_256 (xor_lt_256 (gmul_lt _ _) (gmul_lt _ _)) (getD_lt h 2)) (getD_lt h 3)
  · exact xor_lt_256 (xor_lt_256 (xor_lt_256 (getD_lt h 0) (gmul_lt _ _)) (gmul_lt _ _)) (getD_lt h 3)
  · exact xor_lt_256 (xor_lt_256 (xor_lt_256 (getD_lt h 0) (getD_lt h 1)) (gmul_lt _ _)) (gmul_lt _ _)
  · exact xor_lt_256 (xor_lt_256 (xor_lt_256 (gmul_lt _ _) (getD_lt h 1)) (getD_lt h 2)) (gmul_lt _ _)

theorem good_mixColumns (st : List (List Nat)) (hg : Good st) : Good (mixColumns st) := by
  intro col hcol
  rw [mixColumns, List.mem_map] at hcol
  obtain ⟨c, _, rfl⟩ := hcol
  exact good_mixCol _ (getD_col_good hg c)

theorem good_invMixColumns (st : List (List Nat)) : Good (invMixColumns st) := by
  intro col hcol b hb
  rw [invMixColumns, List.mem_map] at hcol
  obtain ⟨c, _, rfl⟩ := hcol
  simp only [invMixCol, List.mem_cons, List.not_mem_nil, or_false] at hb
  rcases hb with rfl | rfl | rfl | rfl <;>
    exact xor_lt_256 (xor_lt_256 (xor_lt_256 (gmul_lt _ _) (gmul_lt _ _)) (gmul_lt _ _)) (gmul_lt _ _)

theorem good_addRoundKey (st : List (List Nat)) (k : List Nat) (hg : Good st)
    (hk : ∀ b ∈ k, b < 256) : Good (addRoundKey st k) := by
  intro col hcol b hb
  rw [addRoundKey, List.mem_map] at hcol
  obtain ⟨c, _, rfl⟩ := hcol
  rw [List.mem_map] at hb
  obtain ⟨r, _, rfl⟩ := hb
  exact xor_lt_256 (entry_lt st hg c r) (getD_lt hk _)

theorem good_bytesToState (bytes : List Nat) (hb : ∀ b ∈ bytes, b < 256) :
    Good (bytesToState bytes) := by
  intro col hcol b hcb
  rw [bytesToState, List.mem_map] at hcol
  obtain ⟨c, _, rfl⟩ := hcol
  rw [List.mem_map] at hcb
  obtain ⟨r, _, rfl⟩ := hcb
  exact getD_lt hb _

theorem stateToBytes_length (st : List (List Nat)) : (stateToBytes st).length = 16 := rfl

theorem stateToBytes_lt (st : List (List Nat)) (hg : Good st) :
    ∀ b ∈ stateToBytes st, b < 256 := by
  intro b hb
  unfold stateToBytes at hb
  rw [List.mem_flatten] at hb
  obtain ⟨row, hrow, hbrow⟩ := hb
  rw [List.mem_map] at hrow
  obtain ⟨c, _, rfl⟩ := hrow
  rw [List.mem_map] at hbrow
  obtain ⟨r, _, rfl⟩ := hbrow
  exact entry_lt st hg c r

theorem bytesToState_stateToBytes (st : List (List Nat)) (hwf : Wf st) :
    bytesToState (stateToBytes st) = st := by
  obtain ⟨c0, c1, c2, c3, rfl, h0, h1, h2, h3⟩ := state_cases st hwf
  obtain ⟨a0, a1, a2, a3, rfl⟩ := len4_cases c0 h0
  obtain ⟨b0, b1, b2, b3, rfl⟩ := len4_cases c1 h1
  obtain ⟨d0, d1, d2, d3, rfl⟩ := len4_cases c2 h2
  obtain ⟨e0, e1, e2, e3, rfl⟩ := len4_cases c3 h3
  rfl

theorem stateToBytes_bytesToState (bytes : List Nat) (h : bytes.length = 16) :
    stateToBytes (bytesToState bytes) = bytes := by
  apply DES.ext_getD 0
  · rw [stateToBytes_length, h]
  · intro i hi
    rw [stateToBytes_length] at hi
    interval_cases i <;> rfl

theorem invShiftRows_shiftRows (st : List (List Nat)) (hwf : Wf st) :
    invShiftRows (shiftRows st) = st := by
  obtain ⟨c0, c1, c2, c3, rfl, h0, h1, h2, h3⟩ := state_cases st hwf
  obtain ⟨a0, a1, a2, a3, rfl⟩ := len4_cases c0 h0
  obtain ⟨b0, b1, b2, b3, rfl⟩ := len4_cases c1 h1
  obtain ⟨d0, d1, d2, d3, rfl⟩ := len4_cases c2 h2
  obtain ⟨e0, e1, e2, e3, rfl⟩ := len4_cases c3 h3
  rfl

theorem invSubBytes_subBytes (st : List (List Nat)) (hg : Good st) :
    invSubBytes (subBytes st) = st := by
  unfold invSubBytes subBytes
  rw [List.map_map]
  have key : ∀ col ∈ st,
      ((fun col => col.map fun b => INV_S_BOX.getD b 0) ∘
        (fun col => col.map fun b => S_BOX.getD b 0)) col = col := by
    intro col hcol
    show (col.map _).map _ = col
    rw [List.map_map]
    have inner : ∀ b ∈ col,
        ((fun b => INV_S_BOX.getD b 0) ∘ (fun b => S_BOX.getD b 0)) b = b := by
      intro b hb
      exact sbox_invt b (hg col hcol b hb)
    rw [List.map_congr_left inner, List.map_id']
  rw [List.map_congr_left key, List.map_id']

theorem addRoundKey_addRoundKey (st : List (List Nat)) (k : List Nat) (hwf : Wf st) :
    addRoundKey (addRoundKey st k) k = st := by
  obtain ⟨c0, c1, c2, c3, rfl, h0, h1, h2, h3⟩ := state_cases st hwf
  obtain ⟨a0, a1, a2, a3, rfl⟩ := len4_cases c0 h0
  obtain ⟨b0, b1, b2, b3, rfl⟩ := len4_cases c1 h1
  obtain ⟨d0, d1, d2, d3, rfl⟩ := len4_cases c2 h2
  obtain ⟨e0, e1, e2, e3, rfl⟩ := len4_cases c3 h3
  show [[a0 ^^^ k.getD 0 0 ^^^ k.getD 0 0, a1 ^^^ k.getD 1 0 ^^^ k.getD 1 0,
         a2 ^^^ k.getD 2 0 ^^^ k.getD 2 0, a3 ^^^ k.getD 3 0 ^^^ k.getD 3 0],
        [b0 ^^^ k.getD 4 0 ^^^ k.getD 4 0, b1 ^^^ k.getD 5 0 ^^^ k.getD 5 0,
         b2 ^^^ k.getD 6 0 ^^^ k.getD 6 0, b3 ^^^ k.getD 7 0 ^^^ k.getD 7 0],
        [d0 ^^^ k.getD 8 0 ^^^ k.getD 8 0, d1 ^^^ k.getD 9 0 ^^^ k.getD 9 0,
         d2 ^^^ k.getD 10 0 ^^^ k.getD 10 0, d3 ^^^ k.getD 11 0 ^^^ k.getD 11 0],
        [e0 ^^^ k.getD 12 0 ^^^ k.getD 12 0, e1 ^^^ k.getD 13 0 ^^^ k.getD 13 0,
         e2 ^^^ k.getD 14 0 ^^^ k.getD 14 0, e3 ^^^ k.getD 15 0 ^^^ k.getD 15 0]]
      = [[a0, a1, a2, a3], [b0, b1, b2, b3], [d0, d1, d2, d3], [e0, e1, e2, e3]]
  simp only [Nat.xor_cancel_right]

theorem invMixCol_mixCol (a : List Nat) (hlen : a.length = 4) (hg : ∀ b ∈ a, b < 256) :
    invMixCol (mixCol a) = a := by
  obtain ⟨a0, a1, a2, a3, rfl⟩ := len4_cases a hlen
  have h0 : a0 < 256 := hg a0 (by simp)
  have h1 : a1 < 256 := hg a1 (by simp)
  have h2 : a2 < 256 := hg a2 (by simp)
  have h3 : a3 < 256 := hg a3 (by simp)
  show [gmul (gmul a0 2 ^^^ gmul a1 3 ^^^ a2 ^^^ a3) 0x0e ^^^
          gmul (a0 ^^^ gmul a1 2 ^^^ gmul a2 3 ^^^ a3) 0x0b ^^^
          gmul (a0 ^^^ a1 ^^^ gmul a2 2 ^^^ gmul a3 3) 0x0d ^^^
          gmul (gmul a0 3 ^^^ a1 ^^^ a2 ^^^ gmul a3 2) 0x09,
        gmul (gmul a0 2 ^^^ gmul a1 3 ^^^ a2 ^^^ a3) 0x09 ^^^
          gmul (a0 ^^^ gmul a1 2 ^^^ gmul a2 3 ^^^ a3) 0x0e ^^^
          gmul (a0 ^^^ a1 ^^^ gmul a2 2 ^^^ gmul a3 3) 0x0b ^^^
          gmul (gmul a0 3 ^^^ a1 ^^^ a2 ^^^ gmul a3 2) 0x0d,
        gmul (gmul a0 2 ^^^ gmul a1 3 ^^^ a2 ^^^ a3) 0x0d ^^^
          gmul (a0 ^^^ gmul a1 2 ^^^ gmul a2 3 ^^^ a3) 0x09 ^^^
          gmul (a0 ^^^ a1 ^^^ gmul a2 2 ^^^ gmul a3 3) 0x0e ^^^
          gmul (gmul a0 3 ^^^ a1 ^^^ a2 ^^^ gmul a3 2) 0x0b,
        gmul (gmul a0 2 ^^^ gmul a1 3 ^^^ a2 ^^^ a3) 0x0b ^^^
          gmul (a0 ^^^ gmul a1 2 ^^^ gmul a2 3 ^^^ a3) 0x0d ^^^
          gmul (a0 ^^^ a1 ^^^ gmul a2 2 ^^^ gmul a3 3) 0x09 ^^^
          gmul (gmul a0 3 ^^^ a1 ^^^ a2 ^^^ gmul a3 2) 0x0e]
      = [a0, a1, a2, a3]
  rw [invMix_entry0 a0 a1 a2 a3 h0 h1 h2 h3, invMix_entry1 a0 a1 a2 a3 h0 h1 h2 h3,
    invMix_entry2 a0 a1 a2 a3 h0 h1 h2 h3, invMix_entry3 a0 a1 a2 a3 h0 h1 h2 h3]

theorem invMixColumns_mixColumns (st : List (List Nat)) (hwf : Wf st) (hg : Good st) :
    invMixColumns (mixColumns st) = st := by
  obtain ⟨c0, c1, c2, c3, rfl, h0, h1, h2, h3⟩ := state_cases st hwf
  show [invMixCol (mixCol c0), invMixCol (mixCol c1),
        invMixCol (mixCol c2), invMixCol (mixCol c3)] = [c0, c1, c2, c3]
  rw [invMixCol_mixCol c0 h0 (hg c0 (by simp)), invMixCol_mixCol c1 h1 (hg c1 (by simp)),
    invMixCol_mixCol c2 h2 (hg c2 (by simp)), invMixCol_mixCol c3 h3 (hg c3 (by simp))]

/-- The body of `encryptBlock`'s main loop, as a fold over the list of
round keys it reads. -/
def encRounds (ks : List (List Nat)) (st : List (List Nat)) : List (List Nat) :=
  ks.foldl (fun st k => addRoundKey (mixColumns (shiftRows (subBytes st))) k) st

/-- The body of `decryptBlock`'s main loop (the last key of the list is
applied first). -/
def decRounds (ks : List (List Nat)) (st : List (List Nat)) : List (List Nat) :=
  ks.foldr (fun k st => invMixColumns (addRoundKey (invSubBytes (invShiftRows st)) k)) st

theorem encryptBlock_eq (block : List Nat) (keys : List (List Nat)) :
    encryptBlock block keys = stateToBytes (addRoundKey (shiftRows (subBytes
      (encRounds ((List.range' 1 9).map (fun r => keys.getD r []))
        (addRoundKey (bytesToState block) (keys.getD 0 []))))) (keys.getD 10 [])) := by
  unfold encryptBlock encRounds
  rw [List.foldl_map]

theorem decryptBlock_eq (block : List Nat) (keys : List (List Nat)) :
    decryptBlock block keys = stateToBytes (addRoundKey (invSubBytes (invShiftRows
      (decRounds ((List.range' 1 9).map (fun r => keys.getD r []))
        (addRoundKey (bytesToState block) (keys.getD 10 []))))) (keys.getD 0 [])) := by
  unfold decryptBlock decRounds
  rw [← List.foldl_reverse, ← List.map_reverse, List.foldl_map]

/-- Nine inverse rounds undo nine forward rounds (modulo the trailing
SubBytes/ShiftRows pair, which the final rounds handle). -/
theorem decRounds_encRounds : ∀ (ks : List (List Nat)) (st : List (List Nat)),
    Wf st → Good st → (∀ k ∈ ks, ∀ b ∈ k, b < 256) →
    decRounds ks (shiftRows (subBytes (encRounds ks st))) = shiftRows (subBytes st)
  | [], st, _, _, _ => rfl
  | k :: rest, st, hwf, hg, hks => by
    have hkgood : ∀ b ∈ k, b < 256 := hks k (List.mem_cons_self k rest)
    have hrest : ∀ k2 ∈ rest, ∀ b ∈ k2, b < 256 :=
      fun k2 h2 => hks k2 (List.mem_cons_of_mem k h2)
    have hwf' : Wf (addRoundKey (mixColumns (shiftRows (subBytes st))) k) := wf_addRoundKey _ _
    have hg' : Good (addRoundKey (mixColumns (shiftRows (subBytes st))) k) :=
      good_addRoundKey _ _ (good_mixColumns _ (good_shiftRows _ (good_subBytes st))) hkgood
    show invMixColumns (addRoundKey (invSubBytes (invShiftRows
        (decRounds rest (shiftRows (subBytes (encRounds rest
          (addRoundKey (mixColumns (shiftRows (subBytes st))) k))))))) k)
      = shiftRows (subBytes st)
    rw [decRounds_encRounds rest _ hwf' hg' hrest]
    rw [invShiftRows_shiftRows _ (wf_subBytes _ hwf')]
    rw [invSubBytes_subBytes _ hg']
    rw [addRoundKey_addRoundKey _ k (wf_mixColumns _)]
    rw [invMixColumns_mixColumns _ (wf_shiftRows _) (good_shiftRows _ (good_subBytes st))]

/-- Single-block inversion: `decryptBlock` undoes `encryptBlock` for any
16-byte block and any round keys whose entries are bytes. -/
theorem decryptBlock_encryptBlock (block : List Nat) (keys : List (List Nat))
    (hlen : block.length = 16) (hblock : ∀ b ∈ block, b < 256)
    (hkeys : ∀ k ∈ keys, ∀ b ∈ k, b < 256) :
    decryptBlock (encryptBlock block keys) keys = block := by
  have hst0good : Good (addRoundKey (bytesToState block) (keys.getD 0 [])) :=
    good_addRoundKey _ _ (good_bytesToState block hblock) (getD_col_good hkeys 0)
  have hksgood : ∀ k2 ∈ (List.range' 1 9).map (fun r => keys.getD r []), ∀ b ∈ k2, b < 256 := by
    intro k2 h2
    rw [List.mem_map] at h2
    obtain ⟨r, _, rfl⟩ := h2
    exact getD_col_good hkeys r
  rw [encryptBlock_eq, decryptBlock_eq]
  rw [bytesToState_stateToBytes _ (wf_addRoundKey _ _)]
  rw [addRoundKey_addRoundKey _ _ (wf_shiftRows _)]
  rw [decRounds_encRounds _ _ (wf_addRoundKey _ _) hst0good hksgood]
  rw [invShiftRows_shiftRows _ (wf_subBytes _ (wf_addRoundKey _ _))]
  rw [invSubBytes_subBytes _ hst0good]
  rw [addRoundKey_addRoundKey _ _ (wf_bytesToState block)]
  exact stateToBytes_bytesToState block hlen

theorem mem_mapIdx_imp {α β : Type} (f : Nat → α → β) (l : List α) (b : β)
    (hb : b ∈ l.mapIdx f) : ∃ i, ∃ h : i < l.length, b = f i (l.get ⟨i, h⟩) := by
  obtain ⟨⟨i, hi⟩, hget⟩ := List.mem_iff_get.mp hb
  have hi2 : i < l.length := by rw [List.length_mapIdx] at hi; exact hi
  refine ⟨i, hi2, ?_⟩
  rw [← hget]
  exact List.get_mapIdx l f i hi2

theorem rcon_lt (j : Nat) : RCON.getD j 0 < 256 := by
  rcases Nat.lt_or_ge j 11 with h | h
  · revert h
    revert j
    decide
  · rw [List.getD_eq_default _ _ (by rw [show RCON.length = 11 from rfl]; omega)]
    omega

/-- Byte-ness of every word of a word list. -/
def GoodWords (w : List (List Nat)) : Prop := ∀ word ∈ w, ∀ b ∈ word, b < 256

theorem good_nextWord (w : List (List Nat)) (h : GoodWords w) : ∀ b ∈ nextWord w, b < 256 := by
  intro b hb
  unfold nextWord at hb
  obtain ⟨i, hi, rfl⟩ := mem_mapIdx_imp _ _ b hb
  have hbase : ∀ x ∈ w.getD (w.length - 4) [], x < 256 := getD_col_good h _
  have htemp2 : ∀ j, (if w.length % 4 = 0 then
      (subWord (rotWord (w.getD (w.length - 1) []))).set 0
        ((subWord (rotWord (w.getD (w.length - 1) []))).getD 0 0 ^^^ RCON.getD (w.length / 4) 0)
    else w.getD (w.length - 1) []).getD j 0 < 256 := by
    intro j
    split
    · apply getD_lt
      intro x hx
      rcases List.mem_or_eq_of_mem_set hx with h1 | h1
      · rw [subWord, List.mem_map] at h1
        obtain ⟨y, _, rfl⟩ := h1
        exact sbox_lt y
      · subst h1
        exact xor_lt_256 (sbox_lt _) (rcon_lt _)
    · exact getD_lt (getD_col_good h _) j
  exact xor_lt_256 (hbase _ (List.get_mem _ _ _)) (htemp2 i)

theorem good_expandWords : ∀ (n : Nat) (w : List (List Nat)),
    GoodWords w → GoodWords (expandWords n w)
  | 0, w, h => h
  | n + 1, w, h => by
    apply good_expandWords n
    intro word hword
    rcases List.mem_append.mp hword with h1 | h1
    · exact h word h1
    · rw [List.mem_singleton] at h1
      subst h1
      exact good_nextWord w h

/-- Every byte of every round key produced by `keyExpansion` is below
256 — for any key string whatsoever. -/
theorem keyExpansion_good (key : List Char) :
    ∀ k ∈ keyExpansion key, ∀ b ∈ k, b < 256 := by
  intro k hk b hb
  unfold keyExpansion at hk
  rw [List.mem_map] at hk
  obtain ⟨round, _, rfl⟩ := hk
  rw [List.mem_flatten] at hb
  obtain ⟨word, hword, hbw⟩ := hb
  rw [List.mem_map] at hword
  obtain ⟨i, _, rfl⟩ := hword
  have hw : GoodWords (expandWords 40 ((List.range 4).map
      (fun i => ((hexToBytes key).drop (i * 4)).take 4))) := by
    apply good_expandWords
    intro word hword2 x hx
    rw [List.mem_map] at hword2
    obtain ⟨j, _, rfl⟩ := hword2
    exact hexToBytes_lt key x (List.drop_subset _ _ (List.take_subset _ _ hx))
  exact getD_col_good hw _ b hbw

theorem encryptBlock_length (block : List Nat) (keys : List (List Nat)) :
    (encryptBlock block keys).length = 16 := by
  rw [encryptBlock_eq]
  exact stateToBytes_length _

theorem encryptBlock_lt (block : List Nat) (keys : List (List Nat))
    (hkeys : ∀ k ∈ keys, ∀ b ∈ k, b < 256) :
    ∀ b ∈ encryptBlock block keys, b < 256 := by
  rw [encryptBlock_eq]
  exact stateToBytes_lt _
    (good_addRoundKey _ _ (good_shiftRows _ (good_subBytes _)) (getD_col_good hkeys 10))

theorem aesPadBytes_length (B : List Nat) :
    (padBytes B 16).length = B.length + (16 - B.length % 16) := by
  unfold padBytes
  rw [List.length_append, List.length_replicate]

theorem aesPadBytes_dvd (B : List Nat) : 16 ∣ (padBytes B 16).length := by
  rw [aesPadBytes_length]
  omega

theorem aesPadBytes_pos (B : List Nat) : 16 ≤ (padBytes B 16).length := by
  rcases aesPadBytes_dvd B with ⟨k, hk⟩
  rcases k with _ | k'
  · rw [aesPadBytes_length] at hk
    omega
  · rw [hk, Nat.mul_succ]
    omega

theorem aesPadBytes_lt (B : List Nat) (h : ∀ b ∈ B, b < 256) :
    ∀ b ∈ padBytes B 16, b < 256 := by
  intro b hb
  unfold padBytes at hb
  rcases List.mem_append.mp hb with h1 | h1
  · exact h b h1
  · have := List.eq_of_mem_replicate h1
    omega

/-- Removing the padding that the SPN `padBytes` appended restores the
input. -/
theorem aesUnpadBytes_padBytes (B : List Nat) : unpadBytes (padBytes B 16) = B := by
  unfold unpadBytes padBytes
  have hlen : (B ++ List.replicate (16 - B.length % 16) (16 - B.length % 16)).length
      = B.length + (16 - B.length % 16) := by
    rw [List.length_append, List.length_replicate]
  have hmod : B.length % 16 < 16 := Nat.mod_lt _ (by omega)
  have hgetD : (B ++ List.replicate (16 - B.length % 16) (16 - B.length % 16)).getD
      ((B ++ List.replicate (16 - B.length % 16) (16 - B.length % 16)).length - 1) 0
      = 16 - B.length % 16 := by
    rw [hlen, List.getD_append_right _ _ _ _ (by omega)]
    rw [List.getD_eq_getElem _ _ (by rw [List.length_replicate]; omega), List.getElem_replicate]
  rw [hgetD]
  rw [if_pos (by omega)]
  rw [hlen]
  rw [show B.length + (16 - B.length % 16) - (16 - B.length % 16) = B.length by omega]
  rw [List.take_left' rfl]

theorem aesCipherBytes_lt (keys : List (List Nat)) (ptB : List Nat)
    (hkeys : ∀ k ∈ keys, ∀ b ∈ k, b < 256) :
    ∀ b ∈ ((chunks 16 ptB).map (fun blk => encryptBlock blk keys)).flatten, b < 256 := by
  intro b hb
  rw [List.mem_flatten] at hb
  obtain ⟨blk, hblk, hbmem⟩ := hb
  rw [List.mem_map] at hblk
  obtain ⟨c, _, hc⟩ := hblk
  exact encryptBlock_lt c keys hkeys b (hc ▸ hbmem)

theorem aesCipherBytes_length (keys : List (List Nat)) (ptB : List Nat) (h : 16 ∣ ptB.length) :
    (((chunks 16 ptB).map (fun blk => encryptBlock blk keys)).flatten).length = ptB.length := by
  rw [length_flatten_const 16 ((chunks 16 ptB).map (fun blk => encryptBlock blk keys))
    (by
      intro x hx
      rw [List.mem_map] at hx
      obtain ⟨c, _, hc⟩ := hx
      rw [← hc]
      exact encryptBlock_length _ _)]
  rw [List.length_map, chunks_count 16 (by omega) ptB h]
  exact Nat.mul_div_cancel' h

/-- Byte-level SPN round trip over any number of blocks. -/
theorem aesDecryptBytes_encryptBytes (key : List Char) (ptB : List Nat)
    (hdvd : 16 ∣ ptB.length) (hlt : ∀ b ∈ ptB, b < 256) :
    ((chunks 16 (((chunks 16 ptB).map (fun blk => encryptBlock blk (keyExpansion key))).flatten)).map
      (fun blk => decryptBlock blk (keyExpansion key))).flatten = ptB := by
  rw [chunks_join_map 16 (by omega) (fun blk => encryptBlock blk (keyExpansion key)) (chunks 16 ptB)
    (fun x _ => encryptBlock_length _ _)]
  rw [List.map_map]
  have key2 : ∀ c ∈ chunks 16 ptB,
      ((fun blk => decryptBlock blk (keyExpansion key)) ∘
        (fun blk => encryptBlock blk (keyExpansion key))) c = c := by
    intro c hc
    exact decryptBlock_encryptBlock c (keyExpansion key)
      (chunks_length_eq 16 (by omega) ptB c hc hdvd)
      (fun b hb => hlt b (chunks_mem_mem 16 ptB c hc b hb))
      (keyExpansion_good key)
  rw [List.map_congr_left key2, List.map_id']
  exact join_chunks 16 (by omega) ptB

theorem aesEncrypt_eq (pt key : List Char) (hkey : validKey key = true) :
    encrypt pt key = .ok (bytesToHex (((chunks 16 (padBytes (stringToBytes pt) 16)).map
      (fun blk => encryptBlock blk (keyExpansion key))).flatten)) := by
  unfold encrypt
  rw [hkey]
  rfl

theorem aesDecrypt_eq (ct key : List Char) (hkey : validKey key = true)
    (hct : validCiphertext ct = true) :
    decrypt ct key = .ok (bytesToString (unpadBytes
      (((chunks 16 (hexToBytes ct)).map
        (fun blk => decryptBlock blk (keyExpansion key))).flatten))) := by
  unfold decrypt
  rw [hkey, hct]
  rfl

/-- The ciphertext that the SPN `encrypt` produces always passes
`decrypt`'s format validation. -/
theorem aesValidCiphertext_encrypt (pt key : List Char)
    (hkeys : ∀ k ∈ keyExpansion key, ∀ b ∈ k, b < 256) :
    validCiphertext (bytesToHex (((chunks 16 (padBytes (stringToBytes pt) 16)).map
      (fun blk => encryptBlock blk (keyExpansion key))).flatten)) = true := by
  have hdvd := aesPadBytes_dvd (stringToBytes pt)
  have hlen := aesCipherBytes_length (keyExpansion key) (padBytes (stringToBytes pt) 16) hdvd
  have hpos := aesPadBytes_pos (stringToBytes pt)
  unfold validCiphertext
  rw [Bool.and_eq_true, Bool.and_eq_true]
  refine ⟨⟨?_, ?_⟩, ?_⟩
  · rw [Bool.not_eq_true']
    rw [List.isEmpty_eq_false_iff_exists_mem]
    have h2 : (bytesToHex (((chunks 16 (padBytes (stringToBytes pt) 16)).map
        (fun blk => encryptBlock blk (keyExpansion key))).flatten)).length ≥ 32 := by
      rw [bytesToHex_length, hlen]
      omega
    rcases hx : (bytesToHex (((chunks 16 (padBytes (stringToBytes pt) 16)).map
        (fun blk => encryptBlock blk (keyExpansion key))).flatten)) with _ | ⟨c, rest⟩
    · rw [hx] at h2
      simp at h2
    · exact ⟨c, by simp⟩
  · rw [List.all_eq_true]
    intro c hc
    exact bytesToHex_isHex _ c hc
  · rw [Nat.beq_eq_true_eq, bytesToHex_length, hlen]
    rcases hdvd with ⟨k, hk⟩
    rw [hk]
    omega

/-- SPN round trip: for a Latin-1 plaintext and a well-formed key,
`decrypt (encrypt pt key) key` succeeds and returns `pt`. -/
theorem aes_roundtrip (pt key : List Char) (hpt : ∀ c ∈ pt, c.toNat ≤ 255)
    (hkey : validKey key = true) :
    ∃ ct, encrypt pt key = .ok ct ∧ decrypt ct key = .ok pt := by
  refine ⟨_, aesEncrypt_eq pt key hkey, ?_⟩
  rw [aesDecrypt_eq _ key hkey (aesValidCiphertext_encrypt pt key (keyExpansion_good key))]
  rw [hexToBytes_bytesToHex _ (aesCipherBytes_lt _ _ (keyExpansion_good key))]
  rw [aesDecryptBytes_encryptBytes key (padBytes (stringToBytes pt) 16) (aesPadBytes_dvd _)
    (aesPadBytes_lt _ (DES.stringToBytes_lt pt hpt))]
  rw [aesUnpadBytes_padBytes, bytesToString_stringToBytes]

/-- The SPN ciphertext, split into 32-hex-character groups, is the image
of the padded plaintext blocks under the per-block pipeline. -/
theorem aesEncrypt_chunks (pt key : List Char) (hkey : validKey key = true) :
    ∃ ct, encrypt pt key = .ok ct ∧
      chunks 32 ct = (chunks 16 (padBytes (stringToBytes pt) 16)).map
        (fun B => bytesToHex (encryptBlock B (keyExpansion key))) := by
  refine ⟨_, aesEncrypt_eq pt key hkey, ?_⟩
  rw [DES.bytesToHex_flatten, List.map_map]
  rw [chunks_join_map 32 (by omega)
    (bytesToHex ∘ (fun blk => encryptBlock blk (keyExpansion key)))
    (chunks 16 (padBytes (stringToBytes pt) 16))
    (by
      intro x _
      show (bytesToHex (encryptBlock x (keyExpansion key))).length = 32
      rw [bytesToHex_length, encryptBlock_length])]
  rfl

theorem aesChunksPad_length_eq (pt1 pt2 : List Char) (h : pt1.length = pt2.length) :
    (chunks 16 (padBytes (stringToBytes pt1) 16)).length
      = (chunks 16 (padBytes (stringToBytes pt2) 16)).length := by
  rw [chunks_count 16 (by omega) _ (aesPadBytes_dvd _), chunks_count 16 (by omega) _ (aesPadBytes_dvd _),
    aesPadBytes_length, aesPadBytes_length]
  unfold stringToBytes
  rw [List.length_map, List.length_map, h]

end AES

namespace AES

theorem decryptBlock_length (block : List Nat) (keys : List (List Nat)) :
    (decryptBlock block keys).length = 16 := by
  rw [decryptBlock_eq]
  exact stateToBytes_length _

theorem aesDecBytes_length (keys : List (List Nat)) (ctB : List Nat) (h : 16 ∣ ctB.length) :
    (((chunks 16 ctB).map (fun blk => decryptBlock blk keys)).flatten).length = ctB.length := by
  rw [length_flatten_const 16 ((chunks 16 ctB).map (fun blk => decryptBlock blk keys))
    (by
      intro x hx
      rw [List.mem_map] at hx
      obtain ⟨c, _, hc⟩ := hx
      rw [← hc]
      exact decryptBlock_length _ _)]
  rw [List.length_map, chunks_count 16 (by omega) ctB h]
  exact Nat.mul_div_cancel' h

theorem aesValidCiphertext_spec (ct : List Char) (h : validCiphertext ct = true) :
    16 ≤ ct.length ∧ ct.length % 32 = 0 ∧ 2 ∣ ct.length := by
  unfold validCiphertext at h
  rw [Bool.and_eq_true, Bool.and_eq_true] at h
  obtain ⟨⟨h1, _⟩, h3⟩ := h
  rw [Bool.not_eq_true', List.isEmpty_eq_false_iff_exists_mem] at h1
  obtain ⟨c, hc⟩ := h1
  have hpos : 1 ≤ ct.length := List.length_pos.mpr (List.ne_nil_of_mem hc)
  rw [Nat.beq_eq_true_eq] at h3
  exact ⟨by omega, h3, by omega⟩

end AES

namespace DES

theorem desValidCiphertext_spec (ct : List Char) (h : validCiphertext ct = true) :
    8 ≤ ct.length ∧ ct.length % 16 = 0 ∧ 2 ∣ ct.length := by
  unfold validCiphertext at h
  rw [Bool.and_eq_true, Bool.and_eq_true] at h
  obtain ⟨⟨h1, _⟩, h3⟩ := h
  rw [Bool.not_eq_true', List.isEmpty_eq_false_iff_exists_mem] at h1
  obtain ⟨c, hc⟩ := h1
  have hpos : 1 ≤ ct.length := List.length_pos.mpr (List.ne_nil_of_mem hc)
  rw [Nat.beq_eq_true_eq] at h3
  exact ⟨by omega, h3, by omega⟩

end DES

/-- The Feistel engine's example key `133457799BBCDFF1`, used as a
concrete witness input. -/
def desKey0 : List Char :=
  ['1', '3', '3', '4', '5', '7', '7', '9', '9', 'B', 'B', 'C', 'D', 'F', 'F', '1']

/-- The SPN engine's example key `2b7e151628aed2a6abf7158809cf4f3c`. -/
def aesKey0 : List Char :=
  ['2', 'b', '7', 'e', '1', '5', '1', '6', '2', '8', 'a', 'e', 'd', '2', 'a', '6',
   'a', 'b', 'f', '7', '1', '5', '8', '8', '0', '9', 'c', 'f', '4', 'f', '3', 'c']

/-- A well-formed one-block Feistel ciphertext (16 hex zeros). -/
def desCt0 : List Char := List.replicate 16 '0'

/-- A well-formed one-block SPN ciphertext (32 hex zeros). -/
def aesCt0 : List Char := List.replicate 32 '0'

/-- A two-character Latin-1 plaintext. -/
def ptHI : List Char := ['H', 'I']

/-- The spec's description of the SPN block encryption, written as the
explicit chain: AddRoundKey with round key 0; for each round 1 through 9
SubBytes, then ShiftRows, then MixColumns, then AddRoundKey with that
round's key; final round 10 SubBytes, ShiftRows, AddRoundKey with round
key 10 and MixColumns omitted. -/
def specEncryptBlock (block : List Nat) (roundKeys : List (List Nat)) : List Nat :=
  let round := fun (st : List (List Nat)) (i : Nat) =>
    AES.addRoundKey (AES.mixColumns (AES.shiftRows (AES.subBytes st))) (roundKeys.getD i [])
  let s0 := AES.addRoundKey (AES.bytesToState block) (roundKeys.getD 0 [])
  let s9 := round (round (round (round (round (round (round (round (round s0 1) 2) 3) 4) 5) 6) 7) 8) 9
  AES.stateToBytes (AES.addRoundKey (AES.shiftRows (AES.subBytes s9)) (roundKeys.getD 10 []))

/-- C3: the SPN (AES-128) single-block encryption applies AddRoundKey
with round key 0, then for each round 1 through 9 applies SubBytes,
ShiftRows, MixColumns, AddRoundKey with that round's key in this order,
and in the final round 10 applies SubBytes, ShiftRows, AddRoundKey with
round key 10, with MixColumns omitted: `encryptBlock` equals the
explicitly written-out chain `specEncryptBlock`. -/
theorem claim_C3_spn_round_structure (block : List Nat) (roundKeys : List (List Nat)) :
    AES.encryptBlock block roundKeys = specEncryptBlock block roundKeys := rfl

/-- C4: for every byte sequence, `pad` appends exactly `n` bytes of value
`n` where `n = blockSize - (len mod blockSize)` (8 for the Feistel
engine, 16 for the SPN engine), `n` is always in `[1, blockSize]`, and
when the length is already a multiple of the block size a full extra
block of padding bytes is appended. -/
theorem claim_C4_padding (bytes : List Nat) :
    (DES.padBytes bytes
        = bytes ++ List.replicate (8 - bytes.length % 8) (8 - bytes.length % 8) ∧
      1 ≤ 8 - bytes.length % 8 ∧ 8 - bytes.length % 8 ≤ 8 ∧
      (8 ∣ bytes.length → DES.padBytes bytes = bytes ++ List.replicate 8 8)) ∧
    (AES.padBytes bytes 16
        = bytes ++ List.replicate (16 - bytes.length % 16) (16 - bytes.length % 16) ∧
      1 ≤ 16 - bytes.length % 16 ∧ 16 - bytes.length % 16 ≤ 16 ∧
      (16 ∣ bytes.length → AES.padBytes bytes 16 = bytes ++ List.replicate 16 16)) := by
  refine ⟨⟨rfl, ?_, ?_, fun hd => ?_⟩, ⟨rfl, ?_, ?_, fun hd => ?_⟩⟩
  · have := Nat.mod_lt bytes.length (show 0 < 8 by omega)
    omega
  · omega
  · have hz : bytes.length % 8 = 0 := by
      rcases hd with ⟨k, hk⟩
      omega
    show bytes ++ List.replicate (8 - bytes.length % 8) (8 - bytes.length % 8) = _
    rw [hz]
  · have := Nat.mod_lt bytes.length (show 0 < 16 by omega)
    omega
  · omega
  · have hz : bytes.length % 16 = 0 := by
      rcases hd with ⟨k, hk⟩
      omega
    show bytes ++ List.replicate (16 - bytes.length % 16) (16 - bytes.length % 16) = _
    rw [hz]

/-- C4 witness: a byte sequence whose length is already a multiple of
the block size receives one full extra block of padding, in both
engines. -/
theorem claim_C4_padding_witness :
    DES.padBytes (List.replicate 8 0) = List.replicate 8 0 ++ List.replicate 8 8 ∧
    AES.padBytes (List.replicate 16 0) 16
      = List.replicate 16 0 ++ List.replicate 16 16 :=
  ⟨(claim_C4_padding (List.replicate 8 0)).1.2.2.2 (by decide),
   (claim_C4_padding (List.replicate 16 0)).2.2.2.2 (by decide)⟩

/-- C5: for every non-empty byte sequence, `unpad` reads the last byte as
`n` and, when `1 ≤ n ≤ blockSize` (8 for Feistel, 16 for SPN), returns
the sequence with its last `n` bytes removed; for any other last byte it
returns the input unchanged (both branches are total — nothing is ever
thrown). -/
theorem claim_C5_unpadding (bytes : List Nat) (h : bytes ≠ []) :
    ((1 ≤ bytes.getLast h ∧ bytes.getLast h ≤ 8 →
        DES.unpadBytes bytes = bytes.take (bytes.length - bytes.getLast h)) ∧
      (¬(1 ≤ bytes.getLast h ∧ bytes.getLast h ≤ 8) → DES.unpadBytes bytes = bytes)) ∧
    ((1 ≤ bytes.getLast h ∧ bytes.getLast h ≤ 16 →
        AES.unpadBytes bytes = bytes.take (bytes.length - bytes.getLast h)) ∧
      (¬(1 ≤ bytes.getLast h ∧ bytes.getLast h ≤ 16) → AES.unpadBytes bytes = bytes)) := by
  have hpos : 1 ≤ bytes.length := List.length_pos.mpr h
  have hgd : bytes.getD (bytes.length - 1) 0 = bytes.getLast h := by
    rw [List.getLast_eq_getElem bytes h, List.getD_eq_getElem _ _ (by omega)]
  refine ⟨⟨fun hn => ?_, fun hn => ?_⟩, ⟨fun hn => ?_, fun hn => ?_⟩⟩
  · show (if 0 < bytes.getD (bytes.length - 1) 0 ∧ bytes.getD (bytes.length - 1) 0 ≤ 8
        then bytes.take (bytes.length - bytes.getD (bytes.length - 1) 0) else bytes) = _
    rw [hgd, if_pos ⟨hn.1, hn.2⟩]
  · show (if 0 < bytes.getD (bytes.length - 1) 0 ∧ bytes.getD (bytes.length - 1) 0 ≤ 8
        then bytes.take (bytes.length - bytes.getD (bytes.length - 1) 0) else bytes) = _
    rw [hgd, if_neg (fun hc => hn ⟨hc.1, hc.2⟩)]
  · show (if 0 < bytes.getD (bytes.length - 1) 0 ∧ bytes.getD (bytes.length - 1) 0 ≤ 16
        then bytes.take (bytes.length - bytes.getD (bytes.length - 1) 0) else bytes) = _
    rw [hgd, if_pos ⟨hn.1, hn.2⟩]
  · show (if 0 < bytes.getD (bytes.length - 1) 0 ∧ bytes.getD (bytes.length - 1) 0 ≤ 16
        then bytes.take (bytes.length - bytes.getD (bytes.length - 1) 0) else bytes) = _
    rw [hgd, if_neg (fun hc => hn ⟨hc.1, hc.2⟩)]

/-- C5 witness: on `[7, 9, 2]` (valid padding byte 2) both engines drop
the last two bytes, and on `[7, 9, 200]` (invalid padding byte 200) both
return the input unchanged. -/
theorem claim_C5_unpadding_witness :
    DES.unpadBytes [7, 9, 2] = [7] ∧ AES.unpadBytes [7, 9, 2] = [7] ∧
    DES.unpadBytes [7, 9, 200] = [7, 9, 200] ∧ AES.unpadBytes [7, 9, 200] = [7, 9, 200] := by
  have h1 := (claim_C5_unpadding [7, 9, 2] (by decide)).1.1 (by decide)
  have h2 := (claim_C5_unpadding [7, 9, 2] (by decide)).2.1 (by decide)
  have h3 := (claim_C5_unpadding [7, 9, 200] (by decide)).1.2 (by decide)
  have h4 := (claim_C5_unpadding [7, 9, 200] (by decide)).2.2 (by decide)
  exact ⟨by simpa using h1, by simpa using h2, h3, h4⟩

/-- C9: the fixed inverse S-box table is the functional inverse of the
forward S-box — for every byte `b`, `INV_S_BOX[S_BOX[b]] = b` and
`S_BOX[INV_S_BOX[b]] = b` — and hence `invSubBytes` inverts `subBytes`
on every state of bytes. -/
theorem claim_C9_sbox_inverse :
    (∀ b, b < 256 → AES.INV_S_BOX.getD (AES.S_BOX.getD b 0) 0 = b ∧
      AES.S_BOX.getD (AES.INV_S_BOX.getD b 0) 0 = b) ∧
    (∀ st, AES.Good st → AES.invSubBytes (AES.subBytes st) = st) :=
  ⟨fun b hb => ⟨AES.sbox_invt b hb, AES.invsbox_sbox_bounded b hb⟩,
   fun st hg => AES.invSubBytes_subBytes st hg⟩

/-- C9 witness: the inverse S-box inverts the S-box at byte 0x53, and
InvSubBytes inverts SubBytes on a concrete state. -/
theorem claim_C9_sbox_inverse_witness :
    (AES.INV_S_BOX.getD (AES.S_BOX.getD 0x53 0) 0 = 0x53 ∧
      AES.S_BOX.getD (AES.INV_S_BOX.getD 0x53 0) 0 = 0x53) ∧
    AES.invSubBytes (AES.subBytes [[0, 1, 2, 3], [4, 5, 6, 7], [8, 9, 10, 11],
      [12, 13, 14, 15]]) = [[0, 1, 2, 3], [4, 5, 6, 7], [8, 9, 10, 11], [12, 13, 14, 15]] :=
  ⟨claim_C9_sbox_inverse.1 0x53 (by decide),
   claim_C9_sbox_inverse.2 _ (by unfold AES.Good; decide)⟩

/-- C1: for every plaintext string all of whose characters have code
points at most 255 and every well-formed key (exactly 16 hex characters
for the Feistel/DES engine, exactly 32 for the SPN/AES engine),
`decrypt (encrypt P K) K` succeeds and returns `P`, in both engines. -/
theorem claim_C1_roundtrip :
    (∀ (pt key : List Char), (∀ c ∈ pt, c.toNat ≤ 255) → DES.validKey key = true →
      ∃ ct, DES.encrypt pt key = .ok ct ∧ DES.decrypt ct key = .ok pt) ∧
    (∀ (pt key : List Char), (∀ c ∈ pt, c.toNat ≤ 255) → AES.validKey key = true →
      ∃ ct, AES.encrypt pt key = .ok ct ∧ AES.decrypt ct key = .ok pt) :=
  ⟨DES.des_roundtrip, AES.aes_roundtrip⟩

/-- C1 witness: the round trip at the plaintext `"HI"` with the two
example keys. -/
theorem claim_C1_roundtrip_witness :
    (∃ ct, DES.encrypt ptHI desKey0 = .ok ct ∧ DES.decrypt ct desKey0 = .ok ptHI) ∧
    (∃ ct, AES.encrypt ptHI aesKey0 = .ok ct ∧ AES.decrypt ct aesKey0 = .ok ptHI) :=
  ⟨claim_C1_roundtrip.1 ptHI desKey0 (by decide) (by decide),
   claim_C1_roundtrip.2 ptHI aesKey0 (by decide) (by decide)⟩

/-- C2: for every 64-bit block and every 16-hex-character key, applying
the Feistel core transform with the 16 round subkeys reversed to the
result of applying it with the subkeys in forward order yields the block
again; and `decrypt` processes each ciphertext block with exactly this
same `desCore` transform, the round-key sequence reversed (subkey 16
first, subkey 1 last). -/
theorem claim_C2_feistel_involution :
    (∀ (key : List Char) (block : List Bool), DES.validKey key = true → block.length = 64 →
      DES.desCore (DES.desCore block (DES.generateKeys key))
        ((DES.generateKeys key).reverse) = block) ∧
    (∀ (ct key : List Char), DES.validKey key = true → DES.validCiphertext ct = true →
      DES.decrypt ct key = .ok (bytesToString (DES.unpadBytes
        (((chunks 8 (hexToBytes ct)).map
          (DES.processBlockBytes ((DES.generateKeys key).reverse))).flatten)))) :=
  ⟨fun key block _ hb => DES.desCore_involution block hb _,
   fun ct key hk hc => DES.decrypt_eq ct key hk hc⟩

/-- C2 witness: the involution on the all-zero 64-bit block with the
example key, and the decryption shape on a concrete one-block
ciphertext. -/
theorem claim_C2_feistel_involution_witness :
    DES.validKey desKey0 = true ∧ (List.replicate 64 false).length = 64 ∧
    DES.desCore (DES.desCore (List.replicate 64 false) (DES.generateKeys desKey0))
      ((DES.generateKeys desKey0).reverse) = List.replicate 64 false ∧
    DES.validCiphertext desCt0 = true ∧
    DES.decrypt desCt0 desKey0 = .ok (bytesToString (DES.unpadBytes
      (((chunks 8 (hexToBytes desCt0)).map
        (DES.processBlockBytes ((DES.generateKeys desKey0).reverse))).flatten))) :=
  ⟨by decide, by decide,
   claim_C2_feistel_involution.1 desKey0 (List.replicate 64 false) (by decide) (by decide),
   by decide,
   claim_C2_feistel_involution.2 desCt0 desKey0 (by decide) (by decide)⟩

/-- C7: the Feistel key schedule produces 16 subkeys; the per-round shift
is 1 bit in rounds 1, 2, 9, 16 (indices 0, 1, 8, 15) and 2 bits
otherwise; and the subkey of round `i` is the `PC2` selection applied to
the two 28-bit halves of the `PC1`-selected key, each left-rotated by the
ACCUMULATED total of the first `i + 1` shift amounts — the rotation state
is carried across rounds as a left-to-right fold. -/
theorem claim_C7_key_schedule (key : List Char) (i : Nat) (hi : i < 16) :
    (DES.generateKeys key).length = 16 ∧
    DES.SHIFTS.getD i 0 = (if i = 0 ∨ i = 1 ∨ i = 8 ∨ i = 15 then 1 else 2) ∧
    (DES.generateKeys key).getD i [] =
      DES.permute
        (DES.leftShift ((DES.permute (DES.hexToBinary key) DES.PC1).take 28)
          ((DES.SHIFTS.take (i + 1)).sum) ++
         DES.leftShift (((DES.permute (DES.hexToBinary key) DES.PC1).drop 28).take 28)
          ((DES.SHIFTS.take (i + 1)).sum))
        DES.PC2 := by
  refine ⟨?_, ?_, ?_⟩
  · show (DES.genKeysGo ((DES.permute (DES.hexToBinary key) DES.PC1).take 28)
      (((DES.permute (DES.hexToBinary key) DES.PC1).drop 28).take 28) DES.SHIFTS).length = 16
    rw [DES.genKeysGo_length]
    rfl
  · have hall : ∀ j < 16, DES.SHIFTS.getD j 0
        = (if j = 0 ∨ j = 1 ∨ j = 8 ∨ j = 15 then 1 else 2) := by decide
    exact hall i hi
  · have hsum : ∀ j < 16, (DES.SHIFTS.take (j + 1)).sum ≤ 28 := by decide
    show (DES.genKeysGo ((DES.permute (DES.hexToBinary key) DES.PC1).take 28)
      (((DES.permute (DES.hexToBinary key) DES.PC1).drop 28).take 28) DES.SHIFTS).getD i [] = _
    exact DES.genKeysGo_getD DES.SHIFTS i _ _
      (by rw [List.length_take, DES.permute_length]; rfl)
      (by rw [List.length_take, List.length_drop, DES.permute_length]; rfl)
      (by rw [show DES.SHIFTS.length = 16 from rfl]; exact hi)
      (hsum i hi)

/-- C7 witness: the key-schedule characterization at round index 0 of
the example key. -/
theorem claim_C7_key_schedule_witness :
    (0 : Nat) < 16 ∧
    ((DES.generateKeys desKey0).length = 16 ∧
     DES.SHIFTS.getD 0 0 = (if (0 : Nat) = 0 ∨ (0 : Nat) = 1 ∨ (0 : Nat) = 8 ∨ (0 : Nat) = 15
        then 1 else 2) ∧
     (DES.generateKeys desKey0).getD 0 [] =
      DES.permute
        (DES.leftShift ((DES.permute (DES.hexToBinary desKey0) DES.PC1).take 28)
          ((DES.SHIFTS.take (0 + 1)).sum) ++
         DES.leftShift (((DES.permute (DES.hexToBinary desKey0) DES.PC1).drop 28).take 28)
          ((DES.SHIFTS.take (0 + 1)).sum))
        DES.PC2) :=
  ⟨by decide, claim_C7_key_schedule desKey0 0 (by decide)⟩

/-- C6: in each engine, `encrypt` and `decrypt` fail with the
invalid-key error exactly when the key fails the 16/32-hex-character
test (and succeed on any plaintext otherwise), and with a valid key
`decrypt` fails with the invalid-ciphertext error exactly when the
ciphertext is not a non-empty hex string of length a multiple of 16/32
hex characters — both checks sit before any block processing. -/
theorem claim_C6_validation :
    (∀ pt key : List Char,
      (DES.validKey key = false → DES.encrypt pt key = .error .invalidKey) ∧
      (DES.validKey key = true → ∃ ct, DES.encrypt pt key = .ok ct)) ∧
    (∀ ct key : List Char,
      (DES.validKey key = false → DES.decrypt ct key = .error .invalidKey) ∧
      (DES.validKey key = true → DES.validCiphertext ct = false →
        DES.decrypt ct key = .error .invalidCiphertext) ∧
      (DES.validKey key = true → DES.validCiphertext ct = true →
        ∃ pt, DES.decrypt ct key = .ok pt)) ∧
    (∀ pt key : List Char,
      (AES.validKey key = false → AES.encrypt pt key = .error .invalidKey) ∧
      (AES.validKey key = true → ∃ ct, AES.encrypt pt key = .ok ct)) ∧
    (∀ ct key : List Char,
      (AES.validKey key = false → AES.decrypt ct key = .error .invalidKey) ∧
      (AES.validKey key = true → AES.validCiphertext ct = false →
        AES.decrypt ct key = .error .invalidCiphertext) ∧
      (AES.validKey key = true → AES.validCiphertext ct = true →
        ∃ pt, AES.decrypt ct key = .ok pt)) := by
  refine ⟨fun pt key => ⟨fun h => ?_, fun h => ⟨_, DES.encrypt_eq pt key h⟩⟩,
    fun ct key => ⟨fun h => ?_, fun hk hc => ?_,
      fun hk hc => ⟨_, DES.decrypt_eq ct key hk hc⟩⟩,
    fun pt key => ⟨fun h => ?_, fun h => ⟨_, AES.aesEncrypt_eq pt key h⟩⟩,
    fun ct key => ⟨fun h => ?_, fun hk hc => ?_,
      fun hk hc => ⟨_, AES.aesDecrypt_eq ct key hk hc⟩⟩⟩
  · unfold DES.encrypt
    rw [h]
    rfl
  · unfold DES.decrypt
    rw [h]
    rfl
  · unfold DES.decrypt
    rw [hk, hc]
    rfl
  · unfold AES.encrypt
    rw [h]
    rfl
  · unfold AES.decrypt
    rw [h]
    rfl
  · unfold AES.decrypt
    rw [hk, hc]
    rfl

/-- C6 witness: the four failure/success modes at concrete inputs in
both engines (`['z']` is not a well-formed key; `['z', 'z']` is not
well-formed ciphertext). -/
theorem claim_C6_validation_witness :
    DES.encrypt ptHI ['z'] = .error .invalidKey ∧
    (∃ ct, DES.encrypt ptHI desKey0 = .ok ct) ∧
    DES.decrypt ['z', 'z'] desKey0 = .error .invalidCiphertext ∧
    (∃ pt, DES.decrypt desCt0 desKey0 = .ok pt) ∧
    AES.encrypt ptHI ['z'] = .error .invalidKey ∧
    (∃ ct, AES.encrypt ptHI aesKey0 = .ok ct) ∧
    AES.decrypt ['z', 'z'] aesKey0 = .error .invalidCiphertext ∧
    (∃ pt, AES.decrypt aesCt0 aesKey0 = .ok pt) :=
  ⟨(claim_C6_validation.1 ptHI ['z']).1 (by decide),
   (claim_C6_validation.1 ptHI desKey0).2 (by decide),
   (claim_C6_validation.2.1 ['z', 'z'] desKey0).2.1 (by decide) (by decide),
   (claim_C6_validation.2.1 desCt0 desKey0).2.2 (by decide) (by decide),
   (claim_C6_validation.2.2.1 ptHI ['z']).1 (by decide),
   (claim_C6_validation.2.2.1 ptHI aesKey0).2 (by decide),
   (claim_C6_validation.2.2.2 ['z', 'z'] aesKey0).2.1 (by decide) (by decide),
   (claim_C6_validation.2.2.2 aesCt0 aesKey0).2.2 (by decide) (by decide)⟩

/-- C8: for every well-formed key and two equal-length plaintexts whose
padded byte blocks agree outside block `i`, the two ciphertexts agree on
every 16/32-hex-character ciphertext block other than block `i` — no
chaining between blocks, in either engine. -/
theorem claim_C8_block_independence :
    (∀ (pt1 pt2 key : List Char) (i : Nat), pt1.length = pt2.length →
      DES.validKey key = true →
      (∀ j, j ≠ i → (chunks 8 (DES.padBytes (stringToBytes pt1))).getD j []
        = (chunks 8 (DES.padBytes (stringToBytes pt2))).getD j []) →
      ∃ ct1 ct2, DES.encrypt pt1 key = .ok ct1 ∧ DES.encrypt pt2 key = .ok ct2 ∧
        ∀ j, j ≠ i → (chunks 16 ct1).getD j [] = (chunks 16 ct2).getD j []) ∧
    (∀ (pt1 pt2 key : List Char) (i : Nat), pt1.length = pt2.length →
      AES.validKey key = true →
      (∀ j, j ≠ i → (chunks 16 (AES.padBytes (stringToBytes pt1) 16)).getD j []
        = (chunks 16 (AES.padBytes (stringToBytes pt2) 16)).getD j []) →
      ∃ ct1 ct2, AES.encrypt pt1 key = .ok ct1 ∧ AES.encrypt pt2 key = .ok ct2 ∧
        ∀ j, j ≠ i → (chunks 32 ct1).getD j [] = (chunks 32 ct2).getD j []) := by
  constructor
  · intro pt1 pt2 key i hlen hkey hdiff
    obtain ⟨ct1, he1, hc1⟩ := DES.encrypt_chunks pt1 key hkey
    obtain ⟨ct2, he2, hc2⟩ := DES.encrypt_chunks pt2 key hkey
    refine ⟨ct1, ct2, he1, he2, fun j hj => ?_⟩
    rw [hc1, hc2]
    exact map_getD_congr _ _ _ j [] [] (DES.chunksPad_length_eq pt1 pt2 hlen) (hdiff j hj)
  · intro pt1 pt2 key i hlen hkey hdiff
    obtain ⟨ct1, he1, hc1⟩ := AES.aesEncrypt_chunks pt1 key hkey
    obtain ⟨ct2, he2, hc2⟩ := AES.aesEncrypt_chunks pt2 key hkey
    refine ⟨ct1, ct2, he1, he2, fun j hj => ?_⟩
    rw [hc1, hc2]
    exact map_getD_congr _ _ _ j [] [] (AES.aesChunksPad_length_eq pt1 pt2 hlen) (hdiff j hj)

/-- C8 witness: two identical plaintexts trivially differ only within
block 0, and the resulting ciphertexts agree outside block 0. -/
theorem claim_C8_block_independence_witness :
    (∃ ct1 ct2, DES.encrypt ptHI desKey0 = .ok ct1 ∧ DES.encrypt ptHI desKey0 = .ok ct2 ∧
      ∀ j, j ≠ 0 → (chunks 16 ct1).getD j [] = (chunks 16 ct2).getD j []) ∧
    (∃ ct1 ct2, AES.encrypt ptHI aesKey0 = .ok ct1 ∧ AES.encrypt ptHI aesKey0 = .ok ct2 ∧
      ∀ j, j ≠ 0 → (chunks 32 ct1).getD j [] = (chunks 32 ct2).getD j []) :=
  ⟨claim_C8_block_independence.1 ptHI ptHI desKey0 0 rfl (by decide) (fun j hj => rfl),
   claim_C8_block_independence.2 ptHI ptHI aesKey0 0 rfl (by decide) (fun j hj => rfl)⟩

/-- C10: with a well-formed key and a ciphertext passing the hex/length
validation — whether or not it was produced by `encrypt` — `decrypt`
returns a string and raises nothing further: block decryption, padding
removal and byte-to-text decoding are total, and the decrypted byte
sequence is always at least one block (8/16 bytes) long, so the
padding-byte read is in bounds. -/
theorem claim_C10_decrypt_total :
    (∀ ct key : List Char, DES.validKey key = true → DES.validCiphertext ct = true →
      (∃ pt, DES.decrypt ct key = .ok pt) ∧
      8 ≤ (((chunks 8 (hexToBytes ct)).map
        (DES.processBlockBytes ((DES.generateKeys key).reverse))).flatten).length) ∧
    (∀ ct key : List Char, AES.validKey key = true → AES.validCiphertext ct = true →
      (∃ pt, AES.decrypt ct key = .ok pt) ∧
      16 ≤ (((chunks 16 (hexToBytes ct)).map
        (fun blk => AES.decryptBlock blk (AES.keyExpansion key))).flatten).length) := by
  constructor
  · intro ct key hk hc
    obtain ⟨hge, hmod, hdvd2⟩ := DES.desValidCiphertext_spec ct hc
    obtain ⟨m, hm⟩ : 16 ∣ ct.length := Nat.dvd_of_mod_eq_zero hmod
    have hctb : (hexToBytes ct).length = ct.length / 2 := hexToBytes_length ct hdvd2
    have hdvd8 : 8 ∣ (hexToBytes ct).length := by
      rw [hctb, hm]
      exact ⟨m, by omega⟩
    refine ⟨⟨_, DES.decrypt_eq ct key hk hc⟩, ?_⟩
    rw [DES.cipherBytes_length _ _ hdvd8, hctb]
    omega
  · intro ct key hk hc
    obtain ⟨hge, hmod, hdvd2⟩ := AES.aesValidCiphertext_spec ct hc
    obtain ⟨m, hm⟩ : 32 ∣ ct.length := Nat.dvd_of_mod_eq_zero hmod
    have hctb : (hexToBytes ct).length = ct.length / 2 := hexToBytes_length ct hdvd2
    have hdvd16 : 16 ∣ (hexToBytes ct).length := by
      rw [hctb, hm]
      exact ⟨m, by omega⟩
    refine ⟨⟨_, AES.aesDecrypt_eq ct key hk hc⟩, ?_⟩
    rw [AES.aesDecBytes_length _ _ hdvd16, hctb]
    omega

/-- C10 witness: decryption of concrete well-formed one-block
ciphertexts that no `encrypt` call produced succeeds in both engines. -/
theorem claim_C10_decrypt_total_witness :
    ((∃ pt, DES.decrypt desCt0 desKey0 = .ok pt) ∧
      8 ≤ (((chunks 8 (hexToBytes desCt0)).map
        (DES.processBlockBytes ((DES.generateKeys desKey0).reverse))).flatten).length) ∧
    ((∃ pt, AES.decrypt aesCt0 aesKey0 = .ok pt) ∧
      16 ≤ (((chunks 16 (hexToBytes aesCt0)).map
        (fun blk => AES.decryptBlock blk (AES.keyExpansion aesKey0))).flatten).length) :=
  ⟨claim_C10_decrypt_total.1 desCt0 desKey0 (by decide) (by decide),
   claim_C10_decrypt_total.2 aesCt0 aesKey0 (by decide) (by decide)⟩
